import Mathlib

/-! Drawpile: the freehand tool and the raster tile.

A shallow embedding of

* `src/libclient/tools/freehand.cpp` (the `tools::Freehand` stroke state
  machine), with every call that crosses into the brush engine, the message
  writer or the network client recorded in a chronological log, and
* `src/client/core/tile.cpp` (the `dpcore::Tile` pixel block), with pixel
  buffers as lists of cells and pointer arithmetic as integer offsets.

The brush engine that receives the calls (`rustpile::brushengine_*`) is not
among the sources; where a statement is about the dabs of a stroke it is
modelled from section 4.2 of the specification.

Conventions.  `qreal`/`float` values (coordinates, pressure) are rationals.
`Q_ASSERT(c)` is the debug-build behaviour: the operation yields `none` when
`c` is false.  A memory cell holding an indeterminate (never written) value
is `none`; a load or store outside a buffer makes the operation yield `none`.
-/

/-! ## Part 1: the freehand tool -/

/-- Qt `qMin(a, b)`, which is `(a < b) ? a : b`. -/
def qMin (a b : ℚ) : ℚ := if a < b then a else b

namespace paintcore

/-- `paintcore::Point`: position and pressure of one pointer sample. -/
structure Point where
  x : ℚ
  y : ℚ
  pressure : ℚ
deriving DecidableEq

end paintcore

namespace rustpile

/-- What a message writer holds.  `Dabs` stands for the block of dab messages
that one `brushengine_write_dabs` call appends. -/
inductive Msg where
  | UndoPoint (user : Nat)
  | Dabs (user : Nat)
  | PenUp (user : Nat)
deriving DecidableEq

/-- One call leaving the tool: the `rustpile::` functions used by
`freehand.cpp` and `Client::sendEnvelope`.  The engine argument of `stroke_to`
is a pointer (`none` is `nullptr`). -/
inductive Call where
  | set_classicbrush (brush : Nat) (layer : Nat)
  | messagewriter_new
  | write_undopoint (user : Nat)
  | stroke_to (x y pressure : ℚ) (engine : Option Nat) (layer : Nat)
  | end_stroke
  | write_dabs (user : Nat)
  | write_penup (user : Nat)
  | messagewriter_free
  | sendEnvelope (envelope : List Msg)
  | add_offset (x y : Int)
deriving DecidableEq

open paintcore

/-- Modelled from the spec: a dab, one brush stamp.  The code of the brush
engine behind `rustpile::brushengine_*` is not among the sources; of the dab
the specification describes, the centre and the pressure are kept (radius,
colour and the rest are fixed by the brush). -/
structure Dab where
  x : ℚ
  y : ℚ
  pressure : ℚ
deriving DecidableEq

/-- Modelled from the spec: what the missing brush engine takes from the
brush: the spacing threshold ("proportional to brush radius") and the
Euclidean distance in canvas space, a parameter because it is not rational. -/
structure Brush where
  spacing : ℚ
  distance : Point → Point → ℚ

/-- Modelled from the spec: the state of the missing brush engine, section 4.2.
`stroking` is the state of the machine "Idle, Stroking, Idle"; `last` is the
recorded first sample and later the centre of the last dab; `terminal` is the
latest sample; `produced` counts the dabs the stroke produced so far;
`pending` is the "pending outbound buffer". -/
structure BrushEngine where
  stroking : Bool
  last : Point
  terminal : Point
  produced : Nat
  pending : List Dab
deriving DecidableEq

/-- Modelled from the spec: the dab number `k + 1` of a move, for the missing
brush engine: "one dab per spacing-increment along the interpolated path,
interpolating position and pressure linearly", from `a` towards `p`, which lie
`d` apart. -/
def interpolate (b : Brush) (a p : Point) (d : ℚ) (k : Nat) : Dab :=
  let t := ((k : ℚ) + 1) * b.spacing / d
  ⟨a.x + t * (p.x - a.x), a.y + t * (p.y - a.y),
    a.pressure + t * (p.pressure - a.pressure)⟩

/-- Modelled from the spec: `brushengine_stroke_to` of the missing brush
engine, which feeds it one sample.  On an idle engine it is the `begin` of
section 4.2: it "transitions Idle to Stroking, records the first sample, emits
no dab yet".  On a stroking engine it is the `moveTo`: it "computes the
Euclidean distance from the last dab's center to the new sample; if distance
exceeds a spacing threshold, emits one dab per spacing-increment (dab count =
floor(distance/spacing)); updates last-dab-center".  Each emitted dab is
"appended to a pending outbound buffer".  The result is the engine afterwards
and the dabs emitted. -/
def BrushEngine.stroke_to (b : Brush) (e : BrushEngine) (p : Point) :
    BrushEngine × List Dab :=
  if e.stroking then
    let d := b.distance e.last p
    if b.spacing < d then
      let n := (Rat.floor (d / b.spacing)).toNat
      let ds := (List.range n).map (interpolate b e.last p d)
      let last : Point :=
        match ds.getLast? with
        | some c => ⟨c.x, c.y, c.pressure⟩
        | none => e.last
      ({ e with last := last, terminal := p, produced := e.produced + ds.length,
                pending := e.pending ++ ds }, ds)
    else ({ e with terminal := p }, [])
  else
    ({ stroking := true, last := p, terminal := p, produced := 0,
       pending := e.pending }, [])

/-- Modelled from the spec: `brushengine_end_stroke` of the missing brush
engine, the `end` of section 4.2: it "transitions Stroking to Idle, flushes
one final dab at the terminal sample if the stroke produced zero dabs so far
(degenerate tap)".  The result is the engine afterwards and the dabs emitted. -/
def BrushEngine.end_stroke (e : BrushEngine) : BrushEngine × List Dab :=
  if e.stroking then
    if e.produced = 0 then
      let c : Dab := ⟨e.terminal.x, e.terminal.y, e.terminal.pressure⟩
      ({ e with stroking := false, produced := 1, pending := e.pending ++ [c] }, [c])
    else ({ e with stroking := false }, [])
  else (e, [])

/-- Modelled from the spec: `brushengine_write_dabs` of the missing brush
engine: it "drains that buffer into wire messages".  The result is the engine
afterwards and the dabs written. -/
def BrushEngine.write_dabs (e : BrushEngine) : BrushEngine × List Dab :=
  ({ e with pending := [] }, e.pending)

/-- Modelled from the spec: `brushengine_add_offset` of the missing brush
engine: it "may translate the in-progress stroke's internal coordinate frame
without emitting dabs". -/
def BrushEngine.add_offset (e : BrushEngine) (x y : Int) : BrushEngine :=
  { e with last := ⟨e.last.x + x, e.last.y + y, e.last.pressure⟩,
           terminal := ⟨e.terminal.x + x, e.terminal.y + y, e.terminal.pressure⟩ }

/-- Modelled from the spec: the dabs the missing brush engine emits while it
receives the calls of a log, oldest first. -/
def BrushEngine.dabs (b : Brush) : BrushEngine → List Call → List Dab
  | _, [] => []
  | e, .stroke_to x y pressure _ _ :: l =>
    (e.stroke_to b ⟨x, y, pressure⟩).2 ++ BrushEngine.dabs b (e.stroke_to b ⟨x, y, pressure⟩).1 l
  | e, .end_stroke :: l => e.end_stroke.2 ++ BrushEngine.dabs b e.end_stroke.1 l
  | e, .write_dabs _ :: l => BrushEngine.dabs b e.write_dabs.1 l
  | e, .add_offset x y :: l => BrushEngine.dabs b (e.add_offset x y) l
  | e, _ :: l => BrushEngine.dabs b e l

/-- Modelled from the spec: the dabs the missing brush engine writes to the
wire while it receives the calls of a log, one list per `write_dabs` call. -/
def BrushEngine.written (b : Brush) : BrushEngine → List Call → List (List Dab)
  | _, [] => []
  | e, .stroke_to x y pressure _ _ :: l =>
    BrushEngine.written b (e.stroke_to b ⟨x, y, pressure⟩).1 l
  | e, .end_stroke :: l => BrushEngine.written b e.end_stroke.1 l
  | e, .write_dabs _ :: l => e.write_dabs.2 :: BrushEngine.written b e.write_dabs.1 l
  | e, .add_offset x y :: l => BrushEngine.written b (e.add_offset x y) l
  | e, _ :: l => BrushEngine.written b e l

/-- A sample brush: spacing 2 and, as distance, the sum of the offsets along
the axes, which is the Euclidean distance for moves along one axis. -/
def brush0 : Brush := ⟨2, fun a p => |a.x - p.x| + |a.y - p.y|⟩

/-- A sample idle engine with an empty buffer. -/
def engine0 : BrushEngine := ⟨false, ⟨0, 0, 0⟩, ⟨0, 0, 0⟩, 0, []⟩

end rustpile

namespace tools

open rustpile paintcore

/-- What the tool reads from its `ToolController &owner`:
`owner.client()->myId()`, `owner.activeLayer()`,
`owner.model()->paintEngine()->engine()` (a live engine handle) and
`owner.activeBrush().brush()`. -/
structure ToolController where
  myId : Nat
  activeLayer : Nat
  engine : Nat
  activeBrush : Nat
deriving DecidableEq

/-- The members of `tools::Freehand` together with the log of calls made so
far (oldest first). -/
structure Freehand where
  m_drawing : Bool
  m_firstPoint : Bool
  m_start : Point
  log : List Call
deriving DecidableEq

/-- Record one outgoing call. -/
def Freehand.call (t : Freehand) (c : Call) : Freehand :=
  { t with log := t.log ++ [c] }

/-- `Freehand::begin(point, right, zoom)`. -/
def Freehand.begin (owner : ToolController) (t : Freehand) (point : Point) :
    Option Freehand :=
  if t.m_drawing then none -- Q_ASSERT(!m_drawing)
  else
    let t := { t with m_drawing := true }
    let t := { t with m_firstPoint := true }
    let t := t.call (.set_classicbrush owner.activeBrush owner.activeLayer)
    some { t with m_start := point }

/-- `Freehand::motion(point, constrain, center)`. -/
def Freehand.motion (owner : ToolController) (t : Freehand) (point : Point) :
    Freehand :=
  if !t.m_drawing then t
  else
    let t := t.call .messagewriter_new
    let writer : List Msg := []
    let tw : Freehand × List Msg :=
      if t.m_firstPoint then
        let t := { t with m_firstPoint := false }
        let t := t.call (.write_undopoint owner.myId)
        let writer := writer ++ [Msg.UndoPoint owner.myId]
        let t := t.call (.stroke_to t.m_start.x t.m_start.y
          (qMin t.m_start.pressure point.pressure)
          (some owner.engine) owner.activeLayer)
        (t, writer)
      else (t, writer)
    let t := tw.1
    let writer := tw.2
    let t := t.call (.stroke_to point.x point.y point.pressure
      (some owner.engine) owner.activeLayer)
    let t := t.call (.write_dabs owner.myId)
    let writer := writer ++ [Msg.Dabs owner.myId]
    let envelope := writer
    let t := t.call .messagewriter_free
    t.call (.sendEnvelope envelope)

/-- `Freehand::end()`. -/
def Freehand.end_ (owner : ToolController) (t : Freehand) : Freehand :=
  if t.m_drawing then
    let t := { t with m_drawing := false }
    let t := t.call .messagewriter_new
    let writer : List Msg := []
    let tw : Freehand × List Msg :=
      if t.m_firstPoint then
        let t := { t with m_firstPoint := false }
        let t := t.call (.write_undopoint owner.myId)
        let writer := writer ++ [Msg.UndoPoint owner.myId]
        let t := t.call (.stroke_to t.m_start.x t.m_start.y
          t.m_start.pressure none 0)
        (t, writer)
      else (t, writer)
    let t := tw.1
    let writer := tw.2
    let t := t.call .end_stroke
    let t := t.call (.write_dabs owner.myId)
    let writer := writer ++ [Msg.Dabs owner.myId]
    let t := t.call (.write_penup owner.myId)
    let writer := writer ++ [Msg.PenUp owner.myId]
    let envelope := writer
    let t := t.call .messagewriter_free
    t.call (.sendEnvelope envelope)
  else t

/-- `Freehand::offsetActiveTool(x, y)`. -/
def Freehand.offsetActiveTool (t : Freehand) (x y : Int) : Freehand :=
  if t.m_drawing then t.call (.add_offset x y) else t

/-- A run of `motion` calls, in order. -/
def Freehand.motions (owner : ToolController) (t : Freehand) (ps : List Point) :
    Freehand :=
  ps.foldl (Freehand.motion owner) t

/-- One whole stroke: `begin(s)`, then `motion(p)` for each `p` of `ps`, then
`end()`. -/
def Freehand.stroke (owner : ToolController) (t : Freehand) (s : Point)
    (ps : List Point) : Option Freehand :=
  (Freehand.begin owner t s).map fun t1 =>
    Freehand.end_ owner (Freehand.motions owner t1 ps)

/-- The calls made between two states of the tool. -/
def emitted (before after : Freehand) : List Call :=
  after.log.drop before.log.length

/-- The `brushengine_stroke_to` calls of a log. -/
def strokeTos (l : List Call) : List Call :=
  l.filter fun c => match c with
    | .stroke_to .. => true
    | _ => false

/-- The envelopes sent in a log, in order. -/
def sent (l : List Call) : List (List Msg) :=
  l.filterMap fun c => match c with
    | .sendEnvelope e => some e
    | _ => none

/-- The calls of a log that write into a message writer. -/
def writes (l : List Call) : List Call :=
  l.filter fun c => match c with
    | .write_undopoint _ => true
    | .write_dabs _ => true
    | .write_penup _ => true
    | _ => false

/-- The `write_undopoint` calls of a log. -/
def undoPoints (l : List Call) : List Call :=
  l.filter fun c => match c with
    | .write_undopoint _ => true
    | _ => false

/-- The calls a first `motion(p)` makes after `begin(s)`. -/
def firstMotionCalls (owner : ToolController) (s p : Point) : List Call :=
  [.messagewriter_new, .write_undopoint owner.myId,
   .stroke_to s.x s.y (qMin s.pressure p.pressure) (some owner.engine) owner.activeLayer,
   .stroke_to p.x p.y p.pressure (some owner.engine) owner.activeLayer,
   .write_dabs owner.myId, .messagewriter_free,
   .sendEnvelope [Msg.UndoPoint owner.myId, Msg.Dabs owner.myId]]

/-- The calls a later `motion(p)` makes. -/
def nextMotionCalls (owner : ToolController) (p : Point) : List Call :=
  [.messagewriter_new,
   .stroke_to p.x p.y p.pressure (some owner.engine) owner.activeLayer,
   .write_dabs owner.myId, .messagewriter_free,
   .sendEnvelope [Msg.Dabs owner.myId]]

/-- The calls `end()` makes when no motion happened since `begin(s)`. -/
def tapEndCalls (owner : ToolController) (s : Point) : List Call :=
  [.messagewriter_new, .write_undopoint owner.myId,
   .stroke_to s.x s.y s.pressure none 0,
   .end_stroke, .write_dabs owner.myId, .write_penup owner.myId,
   .messagewriter_free,
   .sendEnvelope [Msg.UndoPoint owner.myId, Msg.Dabs owner.myId, Msg.PenUp owner.myId]]

/-- The calls `end()` makes after at least one motion. -/
def plainEndCalls (owner : ToolController) : List Call :=
  [.messagewriter_new, .end_stroke, .write_dabs owner.myId,
   .write_penup owner.myId, .messagewriter_free,
   .sendEnvelope [Msg.Dabs owner.myId, Msg.PenUp owner.myId]]

/-- The calls a run of later motions makes. -/
def nextMotionsCalls (owner : ToolController) : List Point → List Call
  | [] => []
  | p :: ps => nextMotionCalls owner p ++ nextMotionsCalls owner ps

/-- The calls of one whole stroke `begin(s)`, motions `ps`, `end()`. -/
def strokeCalls (owner : ToolController) (s : Point) : List Point → List Call
  | [] =>
    [.set_classicbrush owner.activeBrush owner.activeLayer] ++ tapEndCalls owner s
  | p :: ps =>
    [.set_classicbrush owner.activeBrush owner.activeLayer] ++
      firstMotionCalls owner s p ++ nextMotionsCalls owner ps ++ plainEndCalls owner

/-- A sample controller: user 1, active layer 3, engine handle 7, brush 2. -/
def owner0 : ToolController := ⟨1, 3, 7, 2⟩

/-- A sample idle tool with an empty log. -/
def idle0 : Freehand := ⟨false, false, ⟨0, 0, 0⟩, []⟩

/-- A sample start point with full pressure. -/
def s0 : Point := ⟨10, 20, 1⟩

/-- A sample motion point with half pressure. -/
def p0 : Point := ⟨11, 22, 1 / 2⟩

/-- A sample tool in the middle of a stroke, after one motion. -/
def stroking0 : Freehand := ⟨true, false, s0, []⟩

/-- One call the controller makes on the tool. -/
inductive ToolEvent where
  | begin (point : Point)
  | motion (point : Point)
  | end_
  | offsetActiveTool (x y : Int)
deriving DecidableEq

/-- Perform one call on the tool. -/
def Freehand.step (owner : ToolController) (t : Freehand) : ToolEvent → Option Freehand
  | .begin point => Freehand.begin owner t point
  | .motion point => some (Freehand.motion owner t point)
  | .end_ => some (Freehand.end_ owner t)
  | .offsetActiveTool x y => some (Freehand.offsetActiveTool t x y)

/-- Perform a sequence of calls on the tool, in order. -/
def Freehand.run (owner : ToolController) : List ToolEvent → Freehand → Option Freehand
  | [], t => some t
  | e :: es, t => (Freehand.step owner t e).bind (Freehand.run owner es)

/-- The state machine named by the specification, Idle to Stroking to Idle,
with `true` for Stroking: a begin enters Stroking, an end enters Idle, and no
other call changes the state. -/
def strokingAfter : Bool → List ToolEvent → Bool
  | st, [] => st
  | _, .begin _ :: es => strokingAfter true es
  | _, .end_ :: es => strokingAfter false es
  | st, .motion _ :: es => strokingAfter st es
  | st, .offsetActiveTool _ _ :: es => strokingAfter st es

/-- A sample session: a stroke with one motion and an offset, then a stray
motion and a stray end while idle, then the begin of a second stroke. -/
def events0 : List ToolEvent :=
  [.begin s0, .motion p0, .offsetActiveTool 4 5, .end_, .motion p0, .end_, .begin p0]

end tools

/-! ## Part 2: the raster tile

`SIZE` (declared in `tile.h`) and `blend_normal` (declared in `rasterop.h`)
are parameters.  Buffers are addressed in units of one 32-bit pixel: the
source scales by 4 wherever it works on bytes (`x*SIZE*4`, `w = 4*...`,
`bytesPerLine()` of a 32-bit image is `4*width()`), so a `memcpy` of `4*n`
bytes between pixel-aligned pointers moves `n` cells. -/

namespace dpcore

/-- A pixel buffer; the cell `none` holds an indeterminate value. -/
abbrev Mem := List (Option Nat)

/-- Read through a pointer at offset `i` of a buffer. -/
def load {α : Type} (buf : List α) (i : Int) : Option α :=
  if 0 ≤ i then buf[i.toNat]? else none

/-- Write through a pointer at offset `i` of a buffer. -/
def store {α : Type} (buf : List α) (i : Int) (v : α) : Option (List α) :=
  if 0 ≤ i ∧ i.toNat < buf.length then some (buf.set i.toNat v) else none

/-- Copy `n` cells from `src + s` to `dst + d`, one at a time. -/
def copyCells (src : Mem) : Nat → Mem → Int → Int → Option Mem
  | 0, dst, _, _ => some dst
  | n + 1, dst, d, s => do
    let v ← load src s
    let dst ← store dst d v
    copyCells src n dst (d + 1) (s + 1)

/-- `memcpy(dst + d, src + s, 4*n)`; a negative count, converted to `size_t`,
runs off every buffer. -/
def memcpy (dst : Mem) (d : Int) (src : Mem) (s : Int) (n : Int) : Option Mem :=
  if n < 0 then none else copyCells src n.toNat dst d s

/-- The row loop shared by `Tile(image, x, y)` and `copyToImage`: each round
copies `w` cells and advances the target by `dstride` and the source by
`sstride`. -/
def copyRows (src : Mem) (w dstride sstride : Int) : Nat → Mem → Int → Int → Option Mem
  | 0, dst, _, _ => some dst
  | n + 1, dst, d, s => do
    let dst ← memcpy dst d src s w
    copyRows src w dstride sstride n dst (d + dstride) (s + sstride)

/-- A `QImage` in a 32-bit format: `width()`, `height()` and the pixel data
`bits()`, row after row. -/
structure QImage where
  width : Nat
  height : Nat
  bits : Mem
deriving DecidableEq

/-- `QImage::pixel(x, y)` for a position inside the image. -/
def QImage.pixel (image : QImage) (x y : Int) : Option Nat :=
  if 0 ≤ x ∧ x < image.width ∧ 0 ≤ y ∧ y < image.height then
    (load image.bits (y * image.width + x)).join
  else none

/-- The members of `dpcore::Tile`.  `x_`, `y_` and `data_` are `none` while
they were never initialised; `cache_` is a `QPixmap`, `none` when null and
otherwise the pixel data it was converted from. -/
structure Tile where
  x_ : Option Int
  y_ : Option Int
  data_ : Option Mem
  cache_ : Option Mem
deriving DecidableEq

/-- `Tile::Tile(const QColor& color, int x, int y)`: no member initialiser
and an empty body; `cache_` is default-constructed. -/
def Tile.ofColor (_color : Nat) (_x _y : Int) : Tile :=
  { x_ := none, y_ := none, data_ := none, cache_ := none }

/-- `Tile::Tile(const QImage& image, int x, int y)`. -/
def Tile.ofImage (SIZE : Nat) (image : QImage) (x y : Int) : Option Tile :=
  let data_ : Mem := List.replicate (SIZE * SIZE) none
  let pixels : Int := (y * SIZE) * image.width + x * SIZE
  let data : Int := 0
  let w : Int :=
    if (image.width : Int) - x * SIZE < SIZE then image.width - x * SIZE else SIZE
  let h : Int :=
    if (image.height : Int) - y * SIZE < SIZE then image.height - y * SIZE else SIZE
  (copyRows image.bits w SIZE image.width h.toNat data_ data pixels).map fun d =>
    { x_ := some x, y_ := some y, data_ := some d, cache_ := none }

/-- `Tile::copyToImage(QImage& image)`; the result is the image afterwards. -/
def Tile.copyToImage (SIZE : Nat) (t : Tile) (image : QImage) : Option QImage := do
  let x_ ← t.x_
  let y_ ← t.y_
  let data_ ← t.data_
  let w : Int :=
    if (image.width : Int) - x_ * SIZE < SIZE then image.width - x_ * SIZE else SIZE
  let h : Int :=
    if (image.height : Int) - y_ * SIZE < SIZE then image.height - y_ * SIZE else SIZE
  let ptr : Int := 0
  let targ : Int := (y_ * SIZE) * image.width + x_ * SIZE
  let bits ← copyRows data_ w image.width SIZE h.toNat image.bits targ ptr
  pure { image with bits := bits }

/-- `Tile::pixel(x, y)`, that is `*(data_ + y * SIZE + x)`. -/
def Tile.pixel (SIZE : Nat) (t : Tile) (x y : Int) : Option Nat := do
  let data_ ← t.data_
  let c ← load data_ (y * SIZE + x)
  c

/-- `QPixmap::fromImage(QImage(data_, SIZE, SIZE, QImage::Format_RGB32))`:
a copy of the pixel data, null when the image has no area. -/
def pixmapOf (SIZE : Nat) (data_ : Mem) : Option Mem :=
  if SIZE = 0 then none else some data_

/-- `Tile::paint(painter, target)`; the result is the tile afterwards (its
cache is mutable) and the pixmap handed to `painter->drawPixmap`. -/
def Tile.paint (SIZE : Nat) (t : Tile) : Option (Tile × Option Mem) :=
  if t.cache_.isNone then
    match t.data_ with
    | none => none
    | some d =>
      let t := { t with cache_ := pixmapOf SIZE d }
      some (t, t.cache_)
  else some (t, t.cache_)

/-- The inner loop of `Tile::composite`: `n` rounds of
`blend_normal(ptr, &blend, *src); ++src; ++ptr;`.  The result carries the
advanced `ptr` and `src`. -/
def compositeRow (blend_normal : Nat → Nat → Nat → Nat) (values : List Nat)
    (blend : Nat) : Nat → Mem → Int → Int → Option (Mem × Int × Int)
  | 0, data, ptr, src => some (data, ptr, src)
  | n + 1, data, ptr, src => do
    let a ← load values src
    let c ← load data ptr
    let data ← store data ptr (c.map fun p => blend_normal p blend a)
    compositeRow blend_normal values blend n data (ptr + 1) (src + 1)

/-- The outer loop of `Tile::composite`: after each row `src += skip` and
`ptr += SIZE - w`. -/
def compositeRows (blend_normal : Nat → Nat → Nat → Nat) (values : List Nat)
    (blend : Nat) (SIZE : Nat) (w skip : Int) : Nat → Mem → Int → Int → Option Mem
  | 0, data, _, _ => some data
  | n + 1, data, ptr, src => do
    let r ← compositeRow blend_normal values blend w.toNat data ptr src
    compositeRows blend_normal values blend SIZE w skip n r.1
      (r.2.1 + (SIZE - w)) (r.2.2 + skip)

/-- `Tile::composite(values, color, x, y, w, h, skip)`; `color` is the value
of `color.rgba()`. -/
def Tile.composite (blend_normal : Nat → Nat → Nat → Nat) (SIZE : Nat) (t : Tile)
    (values : List Nat) (color : Nat) (x y w h skip : Int) : Option Tile :=
  if ¬ (x ≥ 0 ∧ x < SIZE ∧ y ≥ 0 ∧ y < SIZE) then none -- Q_ASSERT
  else if ¬ (x + w ≤ SIZE ∧ y + h ≤ SIZE) then none -- Q_ASSERT
  else do
    let data_ ← t.data_
    let ptr : Int := y * SIZE + x
    let src : Int := 0
    let blend := color
    let data_ ← compositeRows blend_normal values blend SIZE w skip h.toNat data_ ptr src
    pure { t with data_ := some data_, cache_ := none }

/-- The offsets used by the inner loop of `Tile::composite`: each of the `n`
rounds calls `blend_normal` on the tile element at `ptr` with the alpha value
at `src`, then steps both.  The result lists the pairs `(ptr, src)` in order
and carries the advanced `ptr` and `src`. -/
def compositeRowTrace : Nat → Int → Int → List (Int × Int) × Int × Int
  | 0, ptr, src => ([], ptr, src)
  | n + 1, ptr, src =>
    let r := compositeRowTrace n (ptr + 1) (src + 1)
    ((ptr, src) :: r.1, r.2)

/-- The offsets used by the outer loop of `Tile::composite`: after each row
`src += skip` and `ptr += SIZE - w`. -/
def compositeRowsTrace (SIZE : Nat) (w skip : Int) : Nat → Int → Int → List (Int × Int)
  | 0, _, _ => []
  | n + 1, ptr, src =>
    let r := compositeRowTrace w.toNat ptr src
    r.1 ++ compositeRowsTrace SIZE w skip n (r.2.1 + (SIZE - w)) (r.2.2 + skip)

/-- The pairs (tile element offset, `values` offset) that
`Tile::composite(values, color, x, y, w, h, skip)` hands to `blend_normal`,
in order. -/
def Tile.compositeTrace (SIZE : Nat) (x y w h skip : Int) : Option (List (Int × Int)) :=
  if ¬ (x ≥ 0 ∧ x < SIZE ∧ y ≥ 0 ∧ y < SIZE) then none -- Q_ASSERT
  else if ¬ (x + w ≤ SIZE ∧ y + h ≤ SIZE) then none -- Q_ASSERT
  else
    let ptr : Int := y * SIZE + x
    let src : Int := 0
    some (compositeRowsTrace SIZE w skip h.toNat ptr src)

/-- One call on a tile: `composite` with its arguments, or `paint`. -/
inductive TileOp where
  | composite (values : List Nat) (color : Nat) (x y w h skip : Int)
  | paint
deriving DecidableEq

/-- Perform one call. -/
def Tile.step (blend_normal : Nat → Nat → Nat → Nat) (SIZE : Nat) (t : Tile) :
    TileOp → Option Tile
  | .composite values color x y w h skip =>
    Tile.composite blend_normal SIZE t values color x y w h skip
  | .paint => (Tile.paint SIZE t).map Prod.fst

/-- Perform a sequence of calls, in order. -/
def Tile.run (blend_normal : Nat → Nat → Nat → Nat) (SIZE : Nat) :
    List TileOp → Tile → Option Tile
  | [], t => some t
  | op :: ops, t => (Tile.step blend_normal SIZE t op).bind (Tile.run blend_normal SIZE ops)

/-- The display cache is not stale: it is null, or it is the pixmap of the
current pixel data. -/
def cacheFresh (SIZE : Nat) (t : Tile) : Prop :=
  t.cache_ = none ∨ ∃ d, t.data_ = some d ∧ t.cache_ = pixmapOf SIZE d

/-- A sample blend: a weighted mix of the two pixel values. -/
def blend0 (dest src alpha : Nat) : Nat := (dest * (255 - alpha) + src * alpha) / 255

/-- A sample 3 by 3 image with pixel values 10 to 18. -/
def image0 : QImage :=
  ⟨3, 3, [some 10, some 11, some 12, some 13, some 14, some 15, some 16, some 17, some 18]⟩

/-- A sample 2 by 2 tile with defined pixels and a null cache. -/
def tile0 : Tile := ⟨some 0, some 0, some [some 1, some 2, some 3, some 4], none⟩

/-- A sample array of alpha values: two rows of two, one value skipped after
each row. -/
def values0 : List Nat := [255, 0, 9, 128, 255]

/-- A sample 3 by 3 target image filled with zeros. -/
def target0 : QImage :=
  ⟨3, 3, [some 0, some 0, some 0, some 0, some 0, some 0, some 0, some 0, some 0]⟩

/-- A sample sequence of calls: paint, composite one pixel at (1, 1), paint. -/
def ops0 : List TileOp := [.paint, .composite [255] 100 1 1 1 1 0, .paint]

/-- The tile that `ops0` leaves behind when started on `tile0`. -/
def tile1 : Tile :=
  ⟨some 0, some 0, some [some 1, some 2, some 3, some 100],
    some [some 1, some 2, some 3, some 100]⟩

end dpcore

/-! ## Part 3: the socket address

`Address` of `src/server/sockets.cpp`.  Its declaration (`sockets.h`) and the
byte-order helpers (`templates.h`) are not among the sources; the members are
those the functions of `sockets.cpp` use.  `IPV6_SUPPORT` is the build flag of
the same name. -/

namespace sockets

/-- Modelled from the spec: `bswap` of `templates.h` on an `ushort`, the byte
swap applied to a port on store: the two bytes of the 16-bit value change
places. -/
def bswap (x : Nat) : Nat := (x % 256) * 256 + (x / 256) % 256

/-- Modelled from the spec: `bswap_const` of `templates.h` on an `ushort`, the
byte swap applied to a stored port on read: the same exchange of the two
bytes, on a value that is not modified. -/
def bswap_const (x : Nat) : Nat := (x % 256) * 256 + (x / 256) % 256

/-- The values of `Address::type`. -/
inductive AddressType where
  | IPV4
  | IPV6
deriving DecidableEq

/-- The members of `sockaddr_in` that `sockets.cpp` uses. -/
structure sockaddr_in where
  sin_family : Nat
  sin_port : Nat
  sin_addr : Nat
deriving DecidableEq

/-- The members of `sockaddr_in6` that `sockets.cpp` uses. -/
structure sockaddr_in6 where
  sin6_family : Nat
  sin6_port : Nat
  sin6_addr : Nat
deriving DecidableEq

/-- The members of `Address`: its `type` and the two socket address records. -/
structure Address where
  type : AddressType
  IPv4 : sockaddr_in
  IPv6 : sockaddr_in6
deriving DecidableEq

/-- `ushort Address::port() const`, the getter. -/
def Address.port (IPV6_SUPPORT : Bool) (a : Address) : Nat :=
  if IPV6_SUPPORT && a.type = AddressType.IPV6 then bswap_const a.IPv6.sin6_port
  else bswap_const a.IPv4.sin_port

/-- `void Address::port(ushort _port)`, the setter; the result is the address
afterwards. -/
def Address.setPort (IPV6_SUPPORT : Bool) (a : Address) (_port : Nat) : Address :=
  if IPV6_SUPPORT && a.type = AddressType.IPV6 then
    { a with IPv6 := { a.IPv6 with sin6_port := bswap _port } }
  else
    { a with IPv4 := { a.IPv4 with sin_port := bswap _port } }

/-- A sample IPv4 address 127.0.0.1 with port field 0. -/
def address0 : Address := ⟨AddressType.IPV4, ⟨2, 0, 2130706433⟩, ⟨0, 0, 0⟩⟩

end sockets

/-! ## Theorems: the freehand tool -/

namespace tools

open rustpile paintcore

theorem qMin_eq_min (a b : ℚ) : qMin a b = min a b := by
  unfold qMin
  rcases lt_or_le a b with h | h
  · simp [h, min_eq_left h.le]
  · simp [not_lt.mpr h, min_eq_right h]

theorem emitted_append (t u : Freehand) (l : List Call) (h : u.log = t.log ++ l) :
    emitted t u = l := by
  simp [emitted, h]

theorem begin_idle (owner : ToolController) (t : Freehand) (p : Point)
    (h : t.m_drawing = false) :
    Freehand.begin owner t p = some
      { m_drawing := true, m_firstPoint := true, m_start := p,
        log := t.log ++ [.set_classicbrush owner.activeBrush owner.activeLayer] } := by
  simp [Freehand.begin, Freehand.call, h]

theorem motion_first (owner : ToolController) (t : Freehand) (p : Point)
    (hd : t.m_drawing = true) (hf : t.m_firstPoint = true) :
    Freehand.motion owner t p =
      { m_drawing := true, m_firstPoint := false, m_start := t.m_start,
        log := t.log ++ firstMotionCalls owner t.m_start p } := by
  simp [Freehand.motion, Freehand.call, hd, hf, firstMotionCalls]

theorem motion_next (owner : ToolController) (t : Freehand) (p : Point)
    (hd : t.m_drawing = true) (hf : t.m_firstPoint = false) :
    Freehand.motion owner t p =
      { m_drawing := true, m_firstPoint := false, m_start := t.m_start,
        log := t.log ++ nextMotionCalls owner p } := by
  simp [Freehand.motion, Freehand.call, hd, hf, nextMotionCalls]

theorem end_first (owner : ToolController) (t : Freehand)
    (hd : t.m_drawing = true) (hf : t.m_firstPoint = true) :
    Freehand.end_ owner t =
      { m_drawing := false, m_firstPoint := false, m_start := t.m_start,
        log := t.log ++ tapEndCalls owner t.m_start } := by
  simp [Freehand.end_, Freehand.call, hd, hf, tapEndCalls]

theorem end_next (owner : ToolController) (t : Freehand)
    (hd : t.m_drawing = true) (hf : t.m_firstPoint = false) :
    Freehand.end_ owner t =
      { m_drawing := false, m_firstPoint := false, m_start := t.m_start,
        log := t.log ++ plainEndCalls owner } := by
  simp [Freehand.end_, Freehand.call, hd, hf, plainEndCalls]

theorem motions_next (owner : ToolController) (ps : List Point) (t : Freehand)
    (hd : t.m_drawing = true) (hf : t.m_firstPoint = false) :
    Freehand.motions owner t ps =
      { m_drawing := true, m_firstPoint := false, m_start := t.m_start,
        log := t.log ++ nextMotionsCalls owner ps } := by
  induction ps generalizing t with
  | nil =>
    cases t
    simp_all [Freehand.motions, nextMotionsCalls]
  | cons p ps ih =>
    have h1 := motion_next owner t p hd hf
    have h2 : Freehand.motions owner t (p :: ps)
        = Freehand.motions owner (Freehand.motion owner t p) ps := rfl
    rw [h2, ih (Freehand.motion owner t p) (by rw [h1]) (by rw [h1]), h1]
    simp [nextMotionsCalls]

theorem stroke_idle (owner : ToolController) (t : Freehand) (s : Point)
    (ps : List Point) (h : t.m_drawing = false) :
    Freehand.stroke owner t s ps = some
      { m_drawing := false, m_firstPoint := false, m_start := s,
        log := t.log ++ strokeCalls owner s ps } := by
  unfold Freehand.stroke
  rw [begin_idle owner t s h]
  cases ps with
  | nil =>
    simp only [Option.map_some', Freehand.motions, List.foldl_nil]
    rw [end_first owner _ rfl rfl]
    simp [strokeCalls]
  | cons p ps =>
    have h2 : ∀ u, Freehand.motions owner u (p :: ps)
        = Freehand.motions owner (Freehand.motion owner u p) ps := fun _ => rfl
    simp only [Option.map_some', h2]
    rw [motion_first owner _ p rfl rfl, motions_next owner ps _ rfl rfl,
      end_next owner _ rfl rfl]
    simp [strokeCalls]

theorem strokeTos_nextMotionsCalls (owner : ToolController) (ps : List Point) :
    strokeTos (nextMotionsCalls owner ps) = ps.map fun p =>
      Call.stroke_to p.x p.y p.pressure (some owner.engine) owner.activeLayer := by
  induction ps with
  | nil => rfl
  | cons p ps ih =>
    have : strokeTos (nextMotionsCalls owner (p :: ps))
        = strokeTos (nextMotionCalls owner p) ++ strokeTos (nextMotionsCalls owner ps) := by
      simp [strokeTos, nextMotionsCalls]
    rw [this, ih]
    simp [strokeTos, nextMotionCalls]

theorem undoPoints_nextMotionsCalls (owner : ToolController) (ps : List Point) :
    undoPoints (nextMotionsCalls owner ps) = [] := by
  induction ps with
  | nil => rfl
  | cons p ps ih =>
    have : undoPoints (nextMotionsCalls owner (p :: ps))
        = undoPoints (nextMotionCalls owner p) ++ undoPoints (nextMotionsCalls owner ps) := by
      simp [undoPoints, nextMotionsCalls]
    rw [this, ih]
    simp [undoPoints, nextMotionCalls]

theorem sent_nextMotionsCalls (owner : ToolController) (ps : List Point) :
    sent (nextMotionsCalls owner ps) = ps.map fun _ => [Msg.Dabs owner.myId] := by
  induction ps with
  | nil => rfl
  | cons p ps ih =>
    have : sent (nextMotionsCalls owner (p :: ps))
        = sent (nextMotionCalls owner p) ++ sent (nextMotionsCalls owner ps) := by
      simp [sent, nextMotionsCalls]
    rw [this, ih]
    simp [sent, nextMotionCalls]

theorem writes_head_strokeCalls (owner : ToolController) (s : Point) (ps : List Point) :
    (writes (strokeCalls owner s ps)).head? = some (Call.write_undopoint owner.myId) := by
  cases ps <;>
    simp [writes, strokeCalls, tapEndCalls, firstMotionCalls, List.filter_cons]

/-- C1: in a stroke begun with `begin(s)` on an idle tool and continued with
`motion(p)`, the first `brushengine_stroke_to` call is made at the position of `s` with pressure
`min(s.pressure, p.pressure)`; when `p` has the lower pressure this is not the
pressure of `s`. -/
theorem C1_first_stroke_to_reconciled (owner : ToolController) (t : Freehand)
    (s p : Point) (h : t.m_drawing = false) :
    ∃ t1, Freehand.begin owner t s = some t1 ∧
      (strokeTos (emitted t (Freehand.motion owner t1 p))).head? =
        some (Call.stroke_to s.x s.y (min s.pressure p.pressure)
          (some owner.engine) owner.activeLayer) ∧
      (p.pressure < s.pressure →
        (strokeTos (emitted t (Freehand.motion owner t1 p))).head? ≠
          some (Call.stroke_to s.x s.y s.pressure
            (some owner.engine) owner.activeLayer)) := by
  refine ⟨_, begin_idle owner t s h, ?_⟩
  rw [motion_first owner _ p rfl rfl]
  simp only [emitted, List.append_assoc, List.drop_left]
  constructor
  · simp [strokeTos, firstMotionCalls, List.filter_cons, qMin_eq_min]
  · intro hlt
    simp [strokeTos, firstMotionCalls, List.filter_cons, qMin, not_lt.mpr hlt.le]
    exact ne_of_lt hlt

theorem C1_witness :
    idle0.m_drawing = false ∧
    ∃ t1, Freehand.begin owner0 idle0 s0 = some t1 ∧
      (strokeTos (emitted idle0 (Freehand.motion owner0 t1 p0))).head? =
        some (Call.stroke_to s0.x s0.y (min s0.pressure p0.pressure)
          (some owner0.engine) owner0.activeLayer) ∧
      (p0.pressure < s0.pressure →
        (strokeTos (emitted idle0 (Freehand.motion owner0 t1 p0))).head? ≠
          some (Call.stroke_to s0.x s0.y s0.pressure
            (some owner0.engine) owner0.activeLayer)) :=
  ⟨rfl, C1_first_stroke_to_reconciled owner0 idle0 s0 p0 rfl⟩

theorem tap_engine_dabs (owner : ToolController) (p : Point) (b : Brush)
    (e : BrushEngine) (he : e.stroking = false) :
    BrushEngine.dabs b e
        ([Call.set_classicbrush owner.activeBrush owner.activeLayer] ++
          tapEndCalls owner p) = [⟨p.x, p.y, p.pressure⟩] ∧
    BrushEngine.written b e
        ([Call.set_classicbrush owner.activeBrush owner.activeLayer] ++
          tapEndCalls owner p) = [e.pending ++ [⟨p.x, p.y, p.pressure⟩]] := by
  constructor <;>
    simp [tapEndCalls, BrushEngine.dabs, BrushEngine.written, BrushEngine.stroke_to,
      BrushEngine.end_stroke, BrushEngine.write_dabs, he]

/-- C2: a tap, `begin(p)` on an idle tool followed at once by `end()`, makes
exactly one `brushengine_stroke_to` call, at the position of `p` with the
pressure of `p`, and makes it before `brushengine_end_stroke`; the dabs are
written after both.  Fed these calls, a brush engine that was idle (modelled
on section 4.2 of the specification, with any brush) records `p` on the
`stroke_to` and flushes one dab on the `end_stroke`: the stroke produces
exactly one dab, at `p` with the pressure of `p`, and the one
`brushengine_write_dabs` call writes it to the wire after whatever the buffer
still held. -/
theorem C2_tap_single_stroke_to (owner : ToolController) (t : Freehand)
    (p : Point) (b : Brush) (e : BrushEngine) (h : t.m_drawing = false)
    (he : e.stroking = false) :
    ∃ t2, Freehand.stroke owner t p [] = some t2 ∧
      emitted t t2 =
        [Call.set_classicbrush owner.activeBrush owner.activeLayer,
         Call.messagewriter_new, Call.write_undopoint owner.myId,
         Call.stroke_to p.x p.y p.pressure none 0,
         Call.end_stroke, Call.write_dabs owner.myId,
         Call.write_penup owner.myId, Call.messagewriter_free,
         Call.sendEnvelope [Msg.UndoPoint owner.myId, Msg.Dabs owner.myId,
           Msg.PenUp owner.myId]] ∧
      strokeTos (emitted t t2) = [Call.stroke_to p.x p.y p.pressure none 0] ∧
      BrushEngine.dabs b e (emitted t t2) = [⟨p.x, p.y, p.pressure⟩] ∧
      (BrushEngine.dabs b e (emitted t t2)).length = 1 ∧
      BrushEngine.written b e (emitted t t2) =
        [e.pending ++ [⟨p.x, p.y, p.pressure⟩]] := by
  have hd := tap_engine_dabs owner p b e he
  refine ⟨_, stroke_idle owner t p [] h, ?_, ?_, ?_, ?_, ?_⟩
  · simp [emitted, strokeCalls, tapEndCalls]
  · simp [emitted, strokeCalls, tapEndCalls, strokeTos, List.filter_cons]
  · simp only [emitted, List.drop_left, strokeCalls]
    exact hd.1
  · simp only [emitted, List.drop_left, strokeCalls]
    rw [hd.1]
    rfl
  · simp only [emitted, List.drop_left, strokeCalls]
    exact hd.2

theorem C2_witness :
    idle0.m_drawing = false ∧ engine0.stroking = false ∧
    ∃ t2, Freehand.stroke owner0 idle0 s0 [] = some t2 ∧
      emitted idle0 t2 =
        [Call.set_classicbrush owner0.activeBrush owner0.activeLayer,
         Call.messagewriter_new, Call.write_undopoint owner0.myId,
         Call.stroke_to s0.x s0.y s0.pressure none 0,
         Call.end_stroke, Call.write_dabs owner0.myId,
         Call.write_penup owner0.myId, Call.messagewriter_free,
         Call.sendEnvelope [Msg.UndoPoint owner0.myId, Msg.Dabs owner0.myId,
           Msg.PenUp owner0.myId]] ∧
      strokeTos (emitted idle0 t2) = [Call.stroke_to s0.x s0.y s0.pressure none 0] ∧
      BrushEngine.dabs brush0 engine0 (emitted idle0 t2) = [⟨s0.x, s0.y, s0.pressure⟩] ∧
      (BrushEngine.dabs brush0 engine0 (emitted idle0 t2)).length = 1 ∧
      BrushEngine.written brush0 engine0 (emitted idle0 t2) =
        [engine0.pending ++ [⟨s0.x, s0.y, s0.pressure⟩]] :=
  ⟨rfl, rfl, C2_tap_single_stroke_to owner0 idle0 s0 brush0 engine0 rfl rfl⟩

/-- C3: in every stroke (`begin`, any number of `motion` calls, `end`) started
on an idle tool, `write_undopoint` is called exactly once, it is the first of
all writes into a message writer (so it comes before any dab is written), and
the first envelope sent starts with the undo point. -/
theorem C3_one_undopoint_first (owner : ToolController) (t : Freehand)
    (s : Point) (ps : List Point) (h : t.m_drawing = false) :
    ∃ t2, Freehand.stroke owner t s ps = some t2 ∧
      undoPoints (emitted t t2) = [Call.write_undopoint owner.myId] ∧
      (writes (emitted t t2)).head? = some (Call.write_undopoint owner.myId) ∧
      ∃ rest more, sent (emitted t t2) = (Msg.UndoPoint owner.myId :: rest) :: more ∧
        (∀ e ∈ more, Msg.UndoPoint owner.myId ∉ e) ∧
        Msg.UndoPoint owner.myId ∉ rest := by
  refine ⟨_, stroke_idle owner t s ps h, ?_, ?_, ?_⟩
  · simp only [emitted, List.drop_left]
    cases ps with
    | nil => simp [undoPoints, strokeCalls, tapEndCalls, List.filter_cons]
    | cons p ps =>
      have : undoPoints (strokeCalls owner s (p :: ps))
          = undoPoints ([Call.set_classicbrush owner.activeBrush owner.activeLayer] ++
              firstMotionCalls owner s p) ++ undoPoints (nextMotionsCalls owner ps)
            ++ undoPoints (plainEndCalls owner) := by
        simp [undoPoints, strokeCalls]
      rw [this, undoPoints_nextMotionsCalls]
      simp [undoPoints, firstMotionCalls, plainEndCalls, List.filter_cons]
  · simp only [emitted, List.drop_left]
    exact writes_head_strokeCalls owner s ps
  · simp only [emitted, List.drop_left]
    cases ps with
    | nil =>
      refine ⟨[Msg.Dabs owner.myId, Msg.PenUp owner.myId], [], ?_, ?_, ?_⟩ <;>
        simp [sent, strokeCalls, tapEndCalls]
    | cons p ps =>
      have : sent (strokeCalls owner s (p :: ps))
          = sent ([Call.set_classicbrush owner.activeBrush owner.activeLayer] ++
              firstMotionCalls owner s p) ++ sent (nextMotionsCalls owner ps)
            ++ sent (plainEndCalls owner) := by
        simp [sent, strokeCalls]
      rw [this, sent_nextMotionsCalls]
      refine ⟨[Msg.Dabs owner.myId],
        (ps.map fun _ => [Msg.Dabs owner.myId]) ++
          [[Msg.Dabs owner.myId, Msg.PenUp owner.myId]], ?_, ?_, ?_⟩
      · simp [sent, firstMotionCalls, plainEndCalls]
      · intro e he
        simp only [List.mem_append, List.mem_map, List.mem_singleton] at he
        rcases he with ⟨_, _, rfl⟩ | rfl <;> simp
      · simp

theorem C3_witness :
    idle0.m_drawing = false ∧
    ∃ t2, Freehand.stroke owner0 idle0 s0 [p0, s0] = some t2 ∧
      undoPoints (emitted idle0 t2) = [Call.write_undopoint owner0.myId] ∧
      (writes (emitted idle0 t2)).head? = some (Call.write_undopoint owner0.myId) ∧
      ∃ rest more, sent (emitted idle0 t2) = (Msg.UndoPoint owner0.myId :: rest) :: more ∧
        (∀ e ∈ more, Msg.UndoPoint owner0.myId ∉ e) ∧
        Msg.UndoPoint owner0.myId ∉ rest :=
  ⟨rfl, C3_one_undopoint_first owner0 idle0 s0 [p0, s0] rfl⟩

/-- C4: `end()` on a tool that is stroking leaves it idle and sends exactly
one envelope; `brushengine_end_stroke` is called before the one
`brushengine_write_dabs`, and the pen-up marker is the last message written,
right after the dabs. -/
theorem C4_end_while_stroking (owner : ToolController) (t : Freehand)
    (h : t.m_drawing = true) :
    (Freehand.end_ owner t).m_drawing = false ∧
    ∃ pre front,
      emitted t (Freehand.end_ owner t) = pre ++
        [Call.end_stroke, Call.write_dabs owner.myId, Call.write_penup owner.myId,
         Call.messagewriter_free,
         Call.sendEnvelope (front ++ [Msg.Dabs owner.myId, Msg.PenUp owner.myId])] ∧
      (∀ c ∈ pre, c ≠ Call.end_stroke ∧ c ≠ Call.write_dabs owner.myId ∧
        c ≠ Call.write_penup owner.myId ∧ ∀ e, c ≠ Call.sendEnvelope e) ∧
      (∀ m ∈ front, m = Msg.UndoPoint owner.myId) ∧
      sent (emitted t (Freehand.end_ owner t)) =
        [front ++ [Msg.Dabs owner.myId, Msg.PenUp owner.myId]] := by
  cases hf : t.m_firstPoint with
  | true =>
    rw [end_first owner t h hf]
    simp only [emitted, List.drop_left]
    refine ⟨trivial, [Call.messagewriter_new, Call.write_undopoint owner.myId,
      Call.stroke_to t.m_start.x t.m_start.y t.m_start.pressure none 0],
      [Msg.UndoPoint owner.myId], ?_, ?_, ?_, ?_⟩ <;>
      simp [tapEndCalls, sent]
  | false =>
    rw [end_next owner t h hf]
    simp only [emitted, List.drop_left]
    refine ⟨trivial, [Call.messagewriter_new], [], ?_, ?_, ?_, ?_⟩ <;>
      simp [plainEndCalls, sent]

theorem C4_witness :
    stroking0.m_drawing = true ∧
    (Freehand.end_ owner0 stroking0).m_drawing = false ∧
    ∃ pre front,
      emitted stroking0 (Freehand.end_ owner0 stroking0) = pre ++
        [Call.end_stroke, Call.write_dabs owner0.myId, Call.write_penup owner0.myId,
         Call.messagewriter_free,
         Call.sendEnvelope (front ++ [Msg.Dabs owner0.myId, Msg.PenUp owner0.myId])] ∧
      (∀ c ∈ pre, c ≠ Call.end_stroke ∧ c ≠ Call.write_dabs owner0.myId ∧
        c ≠ Call.write_penup owner0.myId ∧ ∀ e, c ≠ Call.sendEnvelope e) ∧
      (∀ m ∈ front, m = Msg.UndoPoint owner0.myId) ∧
      sent (emitted stroking0 (Freehand.end_ owner0 stroking0)) =
        [front ++ [Msg.Dabs owner0.myId, Msg.PenUp owner0.myId]] :=
  ⟨rfl, C4_end_while_stroking owner0 stroking0 rfl⟩

/-- C5: `begin(p)` on an idle tool moves it to stroking, records `p` as the
start sample and emits nothing: its only call configures the brush, so there
is no `brushengine_stroke_to`, no write into a message writer and no envelope. -/
theorem C5_begin_emits_nothing (owner : ToolController) (t : Freehand)
    (p : Point) (h : t.m_drawing = false) :
    ∃ t1, Freehand.begin owner t p = some t1 ∧
      t1.m_drawing = true ∧ t1.m_firstPoint = true ∧ t1.m_start = p ∧
      emitted t t1 = [Call.set_classicbrush owner.activeBrush owner.activeLayer] ∧
      strokeTos (emitted t t1) = [] ∧ writes (emitted t t1) = [] ∧
      sent (emitted t t1) = [] := by
  refine ⟨_, begin_idle owner t p h, rfl, rfl, rfl, ?_, ?_, ?_, ?_⟩ <;>
    simp [emitted, strokeTos, writes, sent]

theorem C5_witness :
    idle0.m_drawing = false ∧
    ∃ t1, Freehand.begin owner0 idle0 s0 = some t1 ∧
      t1.m_drawing = true ∧ t1.m_firstPoint = true ∧ t1.m_start = s0 ∧
      emitted idle0 t1 = [Call.set_classicbrush owner0.activeBrush owner0.activeLayer] ∧
      strokeTos (emitted idle0 t1) = [] ∧ writes (emitted idle0 t1) = [] ∧
      sent (emitted idle0 t1) = [] :=
  ⟨rfl, C5_begin_emits_nothing owner0 idle0 s0 rfl⟩

/-- C7: `offsetActiveTool(x, y)` emits no dab and no message: while stroking
its only call is `brushengine_add_offset(x, y)`, while idle it makes no call;
either way `m_drawing`, `m_firstPoint` and `m_start` keep their values and no
envelope is sent. -/
theorem C7_offset_emits_nothing (t : Freehand) (x y : Int) :
    (Freehand.offsetActiveTool t x y).m_drawing = t.m_drawing ∧
    (Freehand.offsetActiveTool t x y).m_firstPoint = t.m_firstPoint ∧
    (Freehand.offsetActiveTool t x y).m_start = t.m_start ∧
    emitted t (Freehand.offsetActiveTool t x y) =
      (if t.m_drawing then [Call.add_offset x y] else []) ∧
    strokeTos (emitted t (Freehand.offsetActiveTool t x y)) = [] ∧
    writes (emitted t (Freehand.offsetActiveTool t x y)) = [] ∧
    sent (emitted t (Freehand.offsetActiveTool t x y)) = [] := by
  cases hd : t.m_drawing <;>
    simp [Freehand.offsetActiveTool, Freehand.call, emitted, hd, strokeTos, writes, sent]

end tools

/-! ## Theorems: the raster tile -/

namespace dpcore

theorem load_natCast {α : Type} (buf : List α) (i : Nat) :
    load buf (i : Int) = buf[i]? := by
  simp [load]

theorem store_natCast {α : Type} (buf : List α) (i : Nat) (v : α)
    (h : i < buf.length) : store buf (i : Int) v = some (buf.set i v) := by
  simp [store, h]

theorem copyCells_spec (src : Mem) (n : Nat) :
    ∀ (dst : Mem) (d s : Nat), d + n ≤ dst.length → s + n ≤ src.length →
      ∃ r, copyCells src n dst (d : Int) (s : Int) = some r ∧
        r.length = dst.length ∧
        (∀ k, k < n → r[d + k]? = src[s + k]?) ∧
        (∀ i, i < d ∨ d + n ≤ i → r[i]? = dst[i]?) := by
  induction n with
  | zero =>
    intro dst d s _ _
    exact ⟨dst, rfl, rfl, fun k hk => absurd hk (Nat.not_lt_zero k), fun _ _ => rfl⟩
  | succ n ih =>
    intro dst d s hd hs
    have hs1 : s < src.length := by omega
    have hd1 : d < dst.length := by omega
    obtain ⟨r, hr, hlen, hin, hout⟩ :=
      ih (dst.set d src[s]) (d + 1) (s + 1) (by simp; omega) (by omega)
    refine ⟨r, ?_, ?_, ?_, ?_⟩
    · have e1 : ((d : Int) + 1) = ((d + 1 : Nat) : Int) := by push_cast; rfl
      have e2 : ((s : Int) + 1) = ((s + 1 : Nat) : Int) := by push_cast; rfl
      simp only [copyCells, load_natCast, List.getElem?_eq_getElem hs1,
        store_natCast _ _ _ hd1, Option.bind_eq_bind, Option.some_bind, e1, e2]
      exact hr
    · simpa using hlen
    · intro k hk
      cases k with
      | zero =>
        have := hout d (Or.inl (Nat.lt_succ_self d))
        simp only [Nat.add_zero]
        rw [this, List.getElem?_set_self hd1, List.getElem?_eq_getElem hs1]
      | succ k =>
        have := hin k (by omega)
        have e1 : d + (k + 1) = d + 1 + k := by omega
        have e2 : s + (k + 1) = s + 1 + k := by omega
        rw [e1, e2]
        exact this
    · intro i hi
      have := hout i (by omega)
      rw [this, List.getElem?_set_ne (by omega)]

theorem memcpy_natCast (dst : Mem) (d : Int) (src : Mem) (s : Int) (n : Nat) :
    memcpy dst d src s (n : Int) = copyCells src n dst d s := by
  simp [memcpy]

theorem copyRows_spec (src : Mem) (w dstride sstride : Nat) (hw : w ≤ dstride) (n : Nat) :
    ∀ (dst : Mem) (d s : Nat),
      (∀ row, row < n → d + row * dstride + w ≤ dst.length) →
      (∀ row, row < n → s + row * sstride + w ≤ src.length) →
      ∃ r, copyRows src (w : Int) (dstride : Int) (sstride : Int) n dst (d : Int) (s : Int)
          = some r ∧
        r.length = dst.length ∧
        (∀ row col, row < n → col < w →
          r[d + row * dstride + col]? = src[s + row * sstride + col]?) ∧
        (∀ i, (∀ row, row < n → i < d + row * dstride ∨ d + row * dstride + w ≤ i) →
          r[i]? = dst[i]?) := by
  induction n with
  | zero =>
    intro dst d s _ _
    exact ⟨dst, rfl, rfl, fun _ _ h => absurd h (Nat.not_lt_zero _), fun _ _ => rfl⟩
  | succ n ih =>
    intro dst d s hd hs
    obtain ⟨r1, hr1, hlen1, hin1, hout1⟩ :=
      copyCells_spec src w dst d s (by simpa using hd 0 (Nat.succ_pos n))
        (by simpa using hs 0 (Nat.succ_pos n))
    have hd' : ∀ row, row < n → d + dstride + row * dstride + w ≤ r1.length := by
      intro row hrow
      have := hd (row + 1) (by omega)
      rw [Nat.succ_mul] at this
      omega
    have hs' : ∀ row, row < n → s + sstride + row * sstride + w ≤ src.length := by
      intro row hrow
      have := hs (row + 1) (by omega)
      rw [Nat.succ_mul] at this
      omega
    obtain ⟨r, hr, hlen, hin, hout⟩ := ih r1 (d + dstride) (s + sstride) hd' hs'
    refine ⟨r, ?_, ?_, ?_, ?_⟩
    · have e1 : ((d : Int) + (dstride : Int)) = ((d + dstride : Nat) : Int) := by
        push_cast; rfl
      have e2 : ((s : Int) + (sstride : Int)) = ((s + sstride : Nat) : Int) := by
        push_cast; rfl
      simp only [copyRows, memcpy_natCast, hr1, Option.bind_eq_bind, Option.some_bind,
        e1, e2]
      exact hr
    · rw [hlen, hlen1]
    · intro row col hrow hcol
      cases row with
      | zero =>
        have h1 := hout (d + col) (by
          intro row _
          left
          omega)
        simp only [Nat.zero_mul, Nat.add_zero]
        rw [h1]
        exact hin1 col hcol
      | succ row =>
        have := hin row col (by omega) hcol
        have e1 : d + (row + 1) * dstride + col = d + dstride + row * dstride + col := by
          rw [Nat.succ_mul]; omega
        have e2 : s + (row + 1) * sstride + col = s + sstride + row * sstride + col := by
          rw [Nat.succ_mul]; omega
        rw [e1, e2]
        exact this
    · intro i hi
      have h0 := hi 0 (Nat.succ_pos n)
      simp only [Nat.zero_mul, Nat.add_zero] at h0
      have h1 := hout i (by
        intro row hrow
        have := hi (row + 1) (by omega)
        rw [Nat.succ_mul] at this
        omega)
      rw [h1]
      exact hout1 i h0

theorem ofImage_natCast (SIZE : Nat) (image : QImage) (x y : Nat)
    (hx : x * SIZE < image.width) (hy : y * SIZE < image.height) :
    Tile.ofImage SIZE image (x : Int) (y : Int) =
      (copyRows image.bits ((min SIZE (image.width - x * SIZE) : Nat) : Int) (SIZE : Int)
        (image.width : Int) (min SIZE (image.height - y * SIZE))
        (List.replicate (SIZE * SIZE) none) ((0 : Nat) : Int)
        ((y * SIZE * image.width + x * SIZE : Nat) : Int)).map fun d =>
        { x_ := some (x : Int), y_ := some (y : Int), data_ := some d, cache_ := none } := by
  have ha : ((x : Int) * (SIZE : Int)) = ((x * SIZE : Nat) : Int) := by push_cast; rfl
  have hb : ((y : Int) * (SIZE : Int)) = ((y * SIZE : Nat) : Int) := by push_cast; rfl
  have hp : ((y * SIZE : Nat) : Int) * (image.width : Int) + ((x * SIZE : Nat) : Int)
      = ((y * SIZE * image.width + x * SIZE : Nat) : Int) := by push_cast; rfl
  have hw : (if (image.width : Int) - ((x * SIZE : Nat) : Int) < (SIZE : Int)
      then (image.width : Int) - ((x * SIZE : Nat) : Int) else (SIZE : Int))
      = ((min SIZE (image.width - x * SIZE) : Nat) : Int) := by
    split <;> omega
  have hh : (if (image.height : Int) - ((y * SIZE : Nat) : Int) < (SIZE : Int)
      then (image.height : Int) - ((y * SIZE : Nat) : Int) else (SIZE : Int))
      = ((min SIZE (image.height - y * SIZE) : Nat) : Int) := by
    split <;> omega
  simp only [Tile.ofImage, ha, hb, hp, hw, hh, Int.toNat_natCast, Nat.cast_zero]

theorem image_row_fits (W H a b w row : Nat) (hw : a + w ≤ W) (hrow : b + row < H) :
    b * W + a + row * W + w ≤ W * H := by
  have h1 : (b + row + 1) * W ≤ H * W := Nat.mul_le_mul_right W hrow
  have h2 : (b + row + 1) * W = b * W + row * W + W := by ring
  have h3 : H * W = W * H := Nat.mul_comm H W
  omega

theorem tile_row_fits (SIZE w h row : Nat) (hw : w ≤ SIZE) (hh : h ≤ SIZE) (hrow : row < h) :
    0 + row * SIZE + w ≤ SIZE * SIZE := by
  have h1 : (row + 1) * SIZE ≤ SIZE * SIZE := Nat.mul_le_mul_right SIZE (by omega)
  have h2 : (row + 1) * SIZE = row * SIZE + SIZE := by ring
  omega

/-- C9: for an image of width `W` and height `H` (its data holding `W * H`
pixels) and a tile grid position `(x, y)` with `x*SIZE < W` and `y*SIZE < H`,
`Tile(image, x, y)` is built without leaving any buffer, and for every
`px < min(SIZE, W - x*SIZE)` and `py < min(SIZE, H - y*SIZE)` its
`pixel(px, py)` is the image pixel at `(x*SIZE + px, y*SIZE + py)`: both are
the content `c` of the image cell at index `(y*SIZE + py) * W + x*SIZE + px`. -/
theorem C9_image_tile_pixels (SIZE : Nat) (image : QImage) (x y : Nat)
    (hwf : image.bits.length = image.width * image.height)
    (hx : x * SIZE < image.width) (hy : y * SIZE < image.height) :
    ∃ t, Tile.ofImage SIZE image (x : Int) (y : Int) = some t ∧
      ∀ px py : Nat, px < min SIZE (image.width - x * SIZE) →
        py < min SIZE (image.height - y * SIZE) →
        Tile.pixel SIZE t (px : Int) (py : Int) =
          QImage.pixel image ((x * SIZE + px : Nat) : Int) ((y * SIZE + py : Nat) : Int) ∧
        ∃ c, image.bits[(y * SIZE + py) * image.width + (x * SIZE + px)]? = some c ∧
          Tile.pixel SIZE t (px : Int) (py : Int) = c := by
  obtain ⟨r, hr, hlen, hin, _⟩ := copyRows_spec image.bits
    (min SIZE (image.width - x * SIZE)) SIZE image.width (Nat.min_le_left _ _)
    (min SIZE (image.height - y * SIZE)) (List.replicate (SIZE * SIZE) none) 0
    (y * SIZE * image.width + x * SIZE)
    (by
      intro row hrow
      rw [List.length_replicate]
      exact tile_row_fits SIZE _ _ row (Nat.min_le_left _ _) (Nat.min_le_left _ _) hrow)
    (by
      intro row hrow
      rw [hwf]
      have hrow2 : row < image.height - y * SIZE :=
        lt_of_lt_of_le hrow (Nat.min_le_right _ _)
      have hw2 : min SIZE (image.width - x * SIZE) ≤ image.width - x * SIZE :=
        Nat.min_le_right _ _
      exact image_row_fits image.width image.height (x * SIZE) (y * SIZE) _ row
        (by omega) (by omega))
  refine ⟨_, by rw [ofImage_natCast SIZE image x y hx hy, hr]; rfl, ?_⟩
  intro px py hpx hpy
  have hcell := hin py px hpy hpx
  have hidx : y * SIZE * image.width + x * SIZE + py * image.width + px
      = (y * SIZE + py) * image.width + (x * SIZE + px) := by ring
  rw [hidx] at hcell
  have hpx2 : px < image.width - x * SIZE := lt_of_lt_of_le hpx (Nat.min_le_right _ _)
  have hpy2 : py < image.height - y * SIZE := lt_of_lt_of_le hpy (Nat.min_le_right _ _)
  have hin_len : (y * SIZE + py) * image.width + (x * SIZE + px) < image.bits.length := by
    have := image_row_fits image.width image.height (x * SIZE + px) 0 1 (y * SIZE + py)
      (by omega) (by omega)
    rw [hwf]
    omega
  have hp1 : ((py : Int) * (SIZE : Int) + (px : Int)) = ((0 + py * SIZE + px : Nat) : Int) := by
    push_cast; ring
  have hp2 : (((y * SIZE + py : Nat) : Int) * (image.width : Int) + ((x * SIZE + px : Nat) : Int))
      = (((y * SIZE + py) * image.width + (x * SIZE + px) : Nat) : Int) := by
    push_cast; ring
  have hpix : Tile.pixel SIZE
      { x_ := some (x : Int), y_ := some (y : Int), data_ := some r, cache_ := none }
      (px : Int) (py : Int) = (image.bits[(y * SIZE + py) * image.width + (x * SIZE + px)]?).join := by
    simp only [Tile.pixel, hp1, load_natCast, hcell, Option.bind_eq_bind, Option.some_bind]
    cases image.bits[(y * SIZE + py) * image.width + (x * SIZE + px)]? <;> simp [Option.join]
  have hbx : (0 : Int) ≤ ((x * SIZE + px : Nat) : Int) ∧
      ((x * SIZE + px : Nat) : Int) < (image.width : Int) ∧
      (0 : Int) ≤ ((y * SIZE + py : Nat) : Int) ∧
      ((y * SIZE + py : Nat) : Int) < (image.height : Int) := by
    refine ⟨Int.natCast_nonneg _, ?_, Int.natCast_nonneg _, ?_⟩ <;> omega
  constructor
  · rw [hpix]
    simp only [QImage.pixel, hbx, and_self, if_true, hp2, load_natCast]
  · refine ⟨image.bits[(y * SIZE + py) * image.width + (x * SIZE + px)], ?_, ?_⟩
    · exact List.getElem?_eq_getElem hin_len
    · rw [hpix, List.getElem?_eq_getElem hin_len]
      rfl

theorem C9_witness :
    image0.bits.length = image0.width * image0.height ∧ 1 * 2 < image0.width ∧
    1 * 2 < image0.height ∧
    ∃ t, Tile.ofImage 2 image0 ((1 : Nat) : Int) ((1 : Nat) : Int) = some t ∧
      ∀ px py : Nat, px < min 2 (image0.width - 1 * 2) →
        py < min 2 (image0.height - 1 * 2) →
        Tile.pixel 2 t (px : Int) (py : Int) =
          QImage.pixel image0 ((1 * 2 + px : Nat) : Int) ((1 * 2 + py : Nat) : Int) ∧
        ∃ c, image0.bits[(1 * 2 + py) * image0.width + (1 * 2 + px)]? = some c ∧
          Tile.pixel 2 t (px : Int) (py : Int) = c :=
  ⟨by decide, by decide, by decide,
    C9_image_tile_pixels 2 image0 1 1 (by decide) (by decide) (by decide)⟩

/-- C10: the colour constructor `Tile(color, x, y)` initialises nothing: the
grid position and the pixel buffer stay indeterminate, and `pixel(px, py)` is
undefined for every `px`, `py` (it reads through a pointer that was never
set), for every `SIZE`. -/
theorem C10_colour_tile_uninitialised (SIZE : Nat) (color : Nat) (x y px py : Int) :
    (Tile.ofColor color x y).x_ = none ∧ (Tile.ofColor color x y).y_ = none ∧
    (Tile.ofColor color x y).data_ = none ∧
    Tile.pixel SIZE (Tile.ofColor color x y) px py = none := by
  simp [Tile.ofColor, Tile.pixel]

theorem compositeRow_spec (bn : Nat → Nat → Nat → Nat) (values : List Nat) (blend : Nat)
    (n : Nat) :
    ∀ (data : Mem) (ptr src : Nat), ptr + n ≤ data.length → src + n ≤ values.length →
      ∃ r, compositeRow bn values blend n data (ptr : Int) (src : Int)
          = some (r, ((ptr + n : Nat) : Int), ((src + n : Nat) : Int)) ∧
        r.length = data.length ∧
        (∀ k, k < n → r[ptr + k]? = (data[ptr + k]?).map fun c =>
          c.map fun p => bn p blend (values.getD (src + k) 0)) ∧
        (∀ i, i < ptr ∨ ptr + n ≤ i → r[i]? = data[i]?) := by
  induction n with
  | zero =>
    intro data ptr src _ _
    exact ⟨data, rfl, rfl, fun k hk => absurd hk (Nat.not_lt_zero k), fun _ _ => rfl⟩
  | succ n ih =>
    intro data ptr src hp hs
    have hs1 : src < values.length := by omega
    have hp1 : ptr < data.length := by omega
    obtain ⟨r, hr, hlen, hin, hout⟩ :=
      ih (data.set ptr (data[ptr].map fun p => bn p blend values[src])) (ptr + 1) (src + 1)
        (by simp; omega) (by omega)
    refine ⟨r, ?_, ?_, ?_, ?_⟩
    · have e1 : ((ptr : Int) + 1) = ((ptr + 1 : Nat) : Int) := by push_cast; rfl
      have e2 : ((src : Int) + 1) = ((src + 1 : Nat) : Int) := by push_cast; rfl
      have e3 : ptr + 1 + n = ptr + (n + 1) := by omega
      have e4 : src + 1 + n = src + (n + 1) := by omega
      simp only [compositeRow, load_natCast, List.getElem?_eq_getElem hs1,
        List.getElem?_eq_getElem hp1, Option.bind_eq_bind, Option.some_bind, e1, e2]
      rw [store_natCast _ _ _ hp1]
      simp only [Option.some_bind]
      rw [hr, e3, e4]
    · simpa using hlen
    · intro k hk
      cases k with
      | zero =>
        have := hout ptr (Or.inl (Nat.lt_succ_self ptr))
        simp only [Nat.add_zero]
        rw [this, List.getElem?_set_self hp1, List.getElem?_eq_getElem hp1]
        simp [List.getD_eq_getElem?_getD, List.getElem?_eq_getElem hs1]
      | succ k =>
        have := hin k (by omega)
        have e1 : ptr + (k + 1) = ptr + 1 + k := by omega
        have e2 : src + (k + 1) = src + 1 + k := by omega
        rw [e1, e2, this, List.getElem?_set_ne (by omega)]
    · intro i hi
      have := hout i (by omega)
      rw [this, List.getElem?_set_ne (by omega)]

theorem compositeRows_spec (bn : Nat → Nat → Nat → Nat) (values : List Nat) (blend : Nat)
    (SIZE w skip : Nat) (hw : w ≤ SIZE) (n : Nat) :
    ∀ (data : Mem) (ptr src : Nat),
      (∀ row, row < n → ptr + row * SIZE + w ≤ data.length) →
      (∀ row, row < n → src + row * (w + skip) + w ≤ values.length) →
      ∃ r, compositeRows bn values blend SIZE (w : Int) (skip : Int) n data
          (ptr : Int) (src : Int) = some r ∧
        r.length = data.length ∧
        (∀ row col, row < n → col < w →
          r[ptr + row * SIZE + col]? = (data[ptr + row * SIZE + col]?).map fun c =>
            c.map fun p => bn p blend (values.getD (src + row * (w + skip) + col) 0)) ∧
        (∀ i, (∀ row, row < n → i < ptr + row * SIZE ∨ ptr + row * SIZE + w ≤ i) →
          r[i]? = data[i]?) := by
  induction n with
  | zero =>
    intro data ptr src _ _
    exact ⟨data, rfl, rfl, fun _ _ h => absurd h (Nat.not_lt_zero _), fun _ _ => rfl⟩
  | succ n ih =>
    intro data ptr src hp hs
    obtain ⟨r1, hr1, hlen1, hin1, hout1⟩ :=
      compositeRow_spec bn values blend w data ptr src
        (by simpa using hp 0 (Nat.succ_pos n)) (by simpa using hs 0 (Nat.succ_pos n))
    have hp' : ∀ row, row < n → ptr + SIZE + row * SIZE + w ≤ r1.length := by
      intro row hrow
      have := hp (row + 1) (by omega)
      rw [Nat.succ_mul] at this
      omega
    have hs' : ∀ row, row < n → src + (w + skip) + row * (w + skip) + w ≤ values.length := by
      intro row hrow
      have := hs (row + 1) (by omega)
      rw [Nat.succ_mul] at this
      omega
    obtain ⟨r, hr, hlen, hin, hout⟩ := ih r1 (ptr + SIZE) (src + (w + skip)) hp' hs'
    refine ⟨r, ?_, ?_, ?_, ?_⟩
    · have e1 : (((ptr + w : Nat) : Int) + ((SIZE : Int) - (w : Int)))
          = ((ptr + SIZE : Nat) : Int) := by push_cast; ring
      have e2 : (((src + w : Nat) : Int) + (skip : Int))
          = ((src + (w + skip) : Nat) : Int) := by push_cast; ring
      simp only [compositeRows, Int.toNat_natCast, hr1, Option.bind_eq_bind,
        Option.some_bind, e1, e2]
      exact hr
    · rw [hlen, hlen1]
    · intro row col hrow hcol
      cases row with
      | zero =>
        have h1 := hout (ptr + col) (by
          intro row _
          left
          omega)
        simp only [Nat.zero_mul, Nat.add_zero]
        rw [h1]
        exact hin1 col hcol
      | succ row =>
        have h1 := hin row col (by omega) hcol
        have h2 := hout1 (ptr + SIZE + row * SIZE + col) (by omega)
        have e1 : ptr + (row + 1) * SIZE + col = ptr + SIZE + row * SIZE + col := by
          rw [Nat.succ_mul]; omega
        have e2 : src + (row + 1) * (w + skip) + col
            = src + (w + skip) + row * (w + skip) + col := by
          rw [Nat.succ_mul]; omega
        rw [e1, e2, h1, h2]
    · intro i hi
      have h0 := hi 0 (Nat.succ_pos n)
      simp only [Nat.zero_mul, Nat.add_zero] at h0
      have h1 := hout i (by
        intro row hrow
        have := hi (row + 1) (by omega)
        rw [Nat.succ_mul] at this
        omega)
      rw [h1]
      exact hout1 i h0

theorem composite_cache_null (bn : Nat → Nat → Nat → Nat) (SIZE : Nat) (u u' : Tile)
    (values : List Nat) (color : Nat) (x y w h skip : Int)
    (hc : Tile.composite bn SIZE u values color x y w h skip = some u') :
    u'.cache_ = none ∧ ∃ d, u'.data_ = some d := by
  unfold Tile.composite at hc
  split at hc
  · exact absurd hc (by simp)
  · split at hc
    · exact absurd hc (by simp)
    · cases hd : u.data_ with
      | none => simp [hd] at hc
      | some d =>
        simp only [hd, Option.bind_eq_bind, Option.some_bind] at hc
        cases hr : compositeRows bn values color SIZE w skip h.toNat d (y * SIZE + x) 0 with
        | none => simp [hr] at hc
        | some r =>
          simp only [hr, Option.some_bind, Option.pure_def, Option.some.injEq] at hc
          subst hc
          exact ⟨rfl, r, rfl⟩

theorem composite_returns (bn : Nat → Nat → Nat → Nat) (SIZE : Nat) (u : Tile) (d : Mem)
    (values : List Nat) (color : Nat) (x y w h skip : Nat)
    (hd : u.data_ = some d) (hlen : d.length = SIZE * SIZE)
    (hx : x < SIZE) (hy : y < SIZE) (hxw : x + w ≤ SIZE) (hyh : y + h ≤ SIZE)
    (hv : h * (w + skip) ≤ values.length) :
    ∃ r, Tile.composite bn SIZE u values color (x : Int) (y : Int) (w : Int) (h : Int)
        (skip : Int) = some { u with data_ := some r, cache_ := none } ∧
      r.length = d.length ∧
      (∀ row col, row < h → col < w →
        r[(y + row) * SIZE + (x + col)]? = (d[(y + row) * SIZE + (x + col)]?).map fun c =>
          c.map fun p => bn p color (values.getD (row * (w + skip) + col) 0)) ∧
      (∀ i, (∀ row, row < h → i < (y + row) * SIZE + x ∨ (y + row) * SIZE + x + w ≤ i) →
        r[i]? = d[i]?) := by
  obtain ⟨r, hr, hrl, hin, hout⟩ := compositeRows_spec bn values color SIZE w skip
    (by omega) h d (y * SIZE + x) 0
    (by
      intro row hrow
      rw [hlen]
      have h1 : (y + row + 1) * SIZE ≤ SIZE * SIZE := Nat.mul_le_mul_right SIZE (by omega)
      have h2 : (y + row + 1) * SIZE = y * SIZE + row * SIZE + SIZE := by ring
      omega)
    (by
      intro row hrow
      have h1 : (row + 1) * (w + skip) ≤ h * (w + skip) :=
        Nat.mul_le_mul_right (w + skip) hrow
      have h2 : (row + 1) * (w + skip) = row * (w + skip) + (w + skip) := by ring
      omega)
  have hptr : ((y : Int) * (SIZE : Int) + (x : Int)) = ((y * SIZE + x : Nat) : Int) := by
    push_cast; rfl
  have ha1 : ((x : Int) ≥ 0 ∧ (x : Int) < (SIZE : Int) ∧ (y : Int) ≥ 0 ∧
      (y : Int) < (SIZE : Int)) := by omega
  have ha2 : ((x : Int) + (w : Int) ≤ (SIZE : Int) ∧ (y : Int) + (h : Int) ≤ (SIZE : Int)) := by
    omega
  refine ⟨r, ?_, hrl, ?_, ?_⟩
  · have hr0 : compositeRows bn values color SIZE (w : Int) (skip : Int) h d
        ((y * SIZE + x : Nat) : Int) 0 = some r := by
      simpa using hr
    simp only [Tile.composite, ha1, ha2, and_self, not_true_eq_false, if_false, hd,
      Option.bind_eq_bind, Option.some_bind, hptr, Int.toNat_natCast, hr0, Option.pure_def]
  · intro row col hrow hcol
    have := hin row col hrow hcol
    have e : y * SIZE + x + row * SIZE + col = (y + row) * SIZE + (x + col) := by ring
    rw [e] at this
    simpa using this
  · intro i hi
    apply hout i
    intro row hrow
    have := hi row hrow
    have e : (y + row) * SIZE = y * SIZE + row * SIZE := by ring
    omega

theorem paint_spec (SIZE : Nat) (u : Tile) (d : Mem) (hd : u.data_ = some d) :
    Tile.paint SIZE u = some
      ({ u with cache_ := if u.cache_ = none then pixmapOf SIZE d else u.cache_ },
        if u.cache_ = none then pixmapOf SIZE d else u.cache_) := by
  cases hc : u.cache_ with
  | none => simp [Tile.paint, hc, hd]
  | some c =>
    cases u
    simp_all [Tile.paint]

theorem step_keeps_fresh (bn : Nat → Nat → Nat → Nat) (SIZE : Nat) (op : TileOp)
    (t t' : Tile) (hfresh : cacheFresh SIZE t) (hstep : Tile.step bn SIZE t op = some t') :
    cacheFresh SIZE t' := by
  cases op with
  | composite values color x y w h skip =>
    exact Or.inl (composite_cache_null bn SIZE t t' values color x y w h skip hstep).1
  | paint =>
    simp only [Tile.step] at hstep
    cases hd : t.data_ with
    | none =>
      rcases hfresh with hnull | ⟨d, hd', _⟩
      · simp [Tile.paint, hnull, hd] at hstep
      · rw [hd] at hd'
        exact absurd hd' (by simp)
    | some d =>
      rw [paint_spec SIZE t d hd] at hstep
      simp only [Option.map_some', Option.some.injEq] at hstep
      subst hstep
      rcases hfresh with hnull | ⟨d', hd', hc⟩
      · exact Or.inr ⟨d, hd, by simp [hnull]⟩
      · by_cases hn : t.cache_ = none
        · exact Or.inr ⟨d, hd, by simp [hn]⟩
        · refine Or.inr ⟨d', hd', ?_⟩
          simp only [hn, if_false]
          exact hc

theorem run_keeps_fresh (bn : Nat → Nat → Nat → Nat) (SIZE : Nat) (ops : List TileOp) :
    ∀ (t t' : Tile), cacheFresh SIZE t → Tile.run bn SIZE ops t = some t' →
      cacheFresh SIZE t' := by
  induction ops with
  | nil =>
    intro t t' hfresh hrun
    simp only [Tile.run, Option.some.injEq] at hrun
    rw [← hrun]
    exact hfresh
  | cons op ops ih =>
    intro t t' hfresh hrun
    simp only [Tile.run] at hrun
    cases hs : Tile.step bn SIZE t op with
    | none => simp [hs] at hrun
    | some t1 =>
      rw [hs] at hrun
      exact ih t1 t' (step_keeps_fresh bn SIZE op t t1 hfresh hs) hrun

/-- C8: the display cache of a tile is never stale.  A sequence of `composite`
and `paint` calls started on a tile whose cache is null or current ends on a
tile whose cache is null or is the pixmap of its current pixel data.
`composite` leaves `cache_` null whenever it completes, and it does complete
under its asserted preconditions on a tile of `SIZE * SIZE` pixels when
`values` holds `h * (w + skip)` entries.  `paint` on a tile with pixel data
keeps a cache that is not null and builds it from the pixel data when it is
null; it never changes the pixel data. -/
theorem C8_cache_never_stale (bn : Nat → Nat → Nat → Nat) (SIZE : Nat)
    (ops : List TileOp) (t t' : Tile) (hfresh : cacheFresh SIZE t)
    (hrun : Tile.run bn SIZE ops t = some t') :
    cacheFresh SIZE t' ∧
    (∀ (u u' : Tile) (values : List Nat) (color : Nat) (x y w h skip : Int),
      Tile.composite bn SIZE u values color x y w h skip = some u' → u'.cache_ = none) ∧
    (∀ (u : Tile) (d : Mem) (values : List Nat) (color : Nat) (x y w h skip : Nat),
      u.data_ = some d → d.length = SIZE * SIZE → x < SIZE → y < SIZE →
      x + w ≤ SIZE → y + h ≤ SIZE → h * (w + skip) ≤ values.length →
      ∃ u', Tile.composite bn SIZE u values color (x : Int) (y : Int) (w : Int) (h : Int)
          (skip : Int) = some u' ∧ u'.cache_ = none) ∧
    (∀ (u : Tile) (d : Mem), u.data_ = some d →
      Tile.paint SIZE u = some
        ({ u with cache_ := if u.cache_ = none then pixmapOf SIZE d else u.cache_ },
          if u.cache_ = none then pixmapOf SIZE d else u.cache_)) := by
  refine ⟨run_keeps_fresh bn SIZE ops t t' hfresh hrun, ?_, ?_, ?_⟩
  · intro u u' values color x y w h skip hc
    exact (composite_cache_null bn SIZE u u' values color x y w h skip hc).1
  · intro u d values color x y w h skip hd hlen hx hy hxw hyh hv
    obtain ⟨r, hr, _⟩ :=
      composite_returns bn SIZE u d values color x y w h skip hd hlen hx hy hxw hyh hv
    exact ⟨_, hr, rfl⟩
  · intro u d hd
    exact paint_spec SIZE u d hd

theorem C8_witness :
    cacheFresh 2 tile0 ∧ Tile.run blend0 2 ops0 tile0 = some tile1 ∧
    cacheFresh 2 tile1 ∧
    (∀ (u u' : Tile) (values : List Nat) (color : Nat) (x y w h skip : Int),
      Tile.composite blend0 2 u values color x y w h skip = some u' → u'.cache_ = none) ∧
    (∀ (u : Tile) (d : Mem) (values : List Nat) (color : Nat) (x y w h skip : Nat),
      u.data_ = some d → d.length = 2 * 2 → x < 2 → y < 2 →
      x + w ≤ 2 → y + h ≤ 2 → h * (w + skip) ≤ values.length →
      ∃ u', Tile.composite blend0 2 u values color (x : Int) (y : Int) (w : Int) (h : Int)
          (skip : Int) = some u' ∧ u'.cache_ = none) ∧
    (∀ (u : Tile) (d : Mem), u.data_ = some d →
      Tile.paint 2 u = some
        ({ u with cache_ := if u.cache_ = none then pixmapOf 2 d else u.cache_ },
          if u.cache_ = none then pixmapOf 2 d else u.cache_)) :=
  ⟨Or.inl rfl, by decide,
    C8_cache_never_stale blend0 2 ops0 tile0 tile1 (Or.inl rfl) (by decide)⟩

end dpcore

/-! ## Theorems: sequences of calls on the freehand tool -/

namespace tools

open rustpile paintcore

theorem motion_idle (owner : ToolController) (t : Freehand) (p : Point)
    (h : t.m_drawing = false) : Freehand.motion owner t p = t := by
  simp [Freehand.motion, h]

theorem end_idle (owner : ToolController) (t : Freehand)
    (h : t.m_drawing = false) : Freehand.end_ owner t = t := by
  simp [Freehand.end_, h]

theorem motion_drawing (owner : ToolController) (t : Freehand) (p : Point) :
    (Freehand.motion owner t p).m_drawing = t.m_drawing := by
  cases hd : t.m_drawing with
  | false => rw [motion_idle owner t p hd, hd]
  | true =>
    cases hf : t.m_firstPoint with
    | true => rw [motion_first owner t p hd hf]
    | false => rw [motion_next owner t p hd hf]

theorem end_drawing (owner : ToolController) (t : Freehand) :
    (Freehand.end_ owner t).m_drawing = false := by
  cases hd : t.m_drawing with
  | false => rw [end_idle owner t hd, hd]
  | true =>
    cases hf : t.m_firstPoint with
    | true => rw [end_first owner t hd hf]
    | false => rw [end_next owner t hd hf]

theorem offset_drawing (t : Freehand) (x y : Int) :
    (Freehand.offsetActiveTool t x y).m_drawing = t.m_drawing := by
  cases hd : t.m_drawing <;> simp [Freehand.offsetActiveTool, Freehand.call, hd]

theorem run_drawing (owner : ToolController) (es : List ToolEvent) :
    ∀ (u u' : Freehand), Freehand.run owner es u = some u' →
      u'.m_drawing = strokingAfter u.m_drawing es := by
  induction es with
  | nil =>
    intro u u' hrun
    simp only [Freehand.run, Option.some.injEq] at hrun
    rw [← hrun]
    rfl
  | cons e es ih =>
    intro u u' hrun
    simp only [Freehand.run] at hrun
    cases hs : Freehand.step owner u e with
    | none => simp [hs] at hrun
    | some u1 =>
      rw [hs] at hrun
      have h1 := ih u1 u' hrun
      rw [h1]
      cases e with
      | begin p =>
        simp only [Freehand.step] at hs
        cases hd : u.m_drawing with
        | true => simp [Freehand.begin, hd] at hs
        | false =>
          rw [begin_idle owner u p hd] at hs
          simp only [Option.some.injEq] at hs
          rw [← hs]
          rfl
      | motion p =>
        simp only [Freehand.step, Option.some.injEq] at hs
        rw [← hs, motion_drawing]
        rfl
      | end_ =>
        simp only [Freehand.step, Option.some.injEq] at hs
        rw [← hs, end_drawing]
        rfl
      | offsetActiveTool x y =>
        simp only [Freehand.step, Option.some.injEq] at hs
        rw [← hs, offset_drawing]
        rfl

theorem step_none_iff (owner : ToolController) (u : Freehand) (e : ToolEvent) :
    Freehand.step owner u e = none ↔ u.m_drawing = true ∧ ∃ p, e = ToolEvent.begin p := by
  cases e with
  | begin p =>
    cases hd : u.m_drawing <;> simp [Freehand.step, Freehand.begin, hd]
  | motion p => simp [Freehand.step]
  | end_ => simp [Freehand.step]
  | offsetActiveTool x y => simp [Freehand.step]

/-- C13: `motion` and `end` on an idle tool are no-ops: the tool, its log of
calls included, is returned as it was, so there is no `brushengine_stroke_to`,
no write of an undo point, dab or pen-up and no envelope, and `m_drawing`,
`m_firstPoint` and `m_start` keep their values.  Over any sequence of calls
`m_drawing` follows the machine Idle, Stroking, Idle: it is true exactly when
the latest begin or end was a begin.  The only call that can fail is a begin
while stroking. -/
theorem C13_idle_calls_are_noops (owner : ToolController) (t : Freehand) (p : Point)
    (h : t.m_drawing = false) :
    Freehand.motion owner t p = t ∧ Freehand.end_ owner t = t ∧
    emitted t (Freehand.motion owner t p) = [] ∧
    emitted t (Freehand.end_ owner t) = [] ∧
    (∀ (es : List ToolEvent) (u u' : Freehand), Freehand.run owner es u = some u' →
      u'.m_drawing = strokingAfter u.m_drawing es) ∧
    (∀ (u : Freehand) (e : ToolEvent),
      Freehand.step owner u e = none ↔ u.m_drawing = true ∧ ∃ q, e = ToolEvent.begin q) := by
  refine ⟨motion_idle owner t p h, end_idle owner t h, ?_, ?_, run_drawing owner,
    step_none_iff owner⟩
  · rw [motion_idle owner t p h]
    simp [emitted]
  · rw [end_idle owner t h]
    simp [emitted]

theorem C13_witness :
    idle0.m_drawing = false ∧
    (Freehand.run owner0 events0 idle0).isSome = true ∧
    Freehand.motion owner0 idle0 p0 = idle0 ∧ Freehand.end_ owner0 idle0 = idle0 ∧
    emitted idle0 (Freehand.motion owner0 idle0 p0) = [] ∧
    emitted idle0 (Freehand.end_ owner0 idle0) = [] ∧
    (∀ (es : List ToolEvent) (u u' : Freehand), Freehand.run owner0 es u = some u' →
      u'.m_drawing = strokingAfter u.m_drawing es) ∧
    (∀ (u : Freehand) (e : ToolEvent),
      Freehand.step owner0 u e = none ↔ u.m_drawing = true ∧ ∃ q, e = ToolEvent.begin q) :=
  ⟨rfl, by decide, C13_idle_calls_are_noops owner0 idle0 p0 rfl⟩

/-- C14: a stroke `begin(s)`, `motion(p)`, further motions `ps`, `end()` on an
idle tool makes one `brushengine_stroke_to` call for `s`, with pressure
`min(s.pressure, p.pressure)`, and then one for each motion point in order,
with its own position and pressure: `n + 1` calls for `n` motions.  It sends
`n + 1` envelopes, one per motion and one for the end, and `end()` itself adds
no `brushengine_stroke_to` call. -/
theorem C14_stroke_calls (owner : ToolController) (t : Freehand) (s p : Point)
    (ps : List Point) (h : t.m_drawing = false) :
    ∃ t1 t2, Freehand.begin owner t s = some t1 ∧
      Freehand.stroke owner t s (p :: ps) = some t2 ∧
      strokeTos (emitted t t2) =
        Call.stroke_to s.x s.y (min s.pressure p.pressure)
          (some owner.engine) owner.activeLayer ::
        (p :: ps).map (fun q => Call.stroke_to q.x q.y q.pressure
          (some owner.engine) owner.activeLayer) ∧
      (strokeTos (emitted t t2)).length = (p :: ps).length + 1 ∧
      sent (emitted t t2) =
        [Msg.UndoPoint owner.myId, Msg.Dabs owner.myId] ::
          (ps.map fun _ => [Msg.Dabs owner.myId]) ++
          [[Msg.Dabs owner.myId, Msg.PenUp owner.myId]] ∧
      (sent (emitted t t2)).length = (p :: ps).length + 1 ∧
      strokeTos (emitted (Freehand.motions owner t1 (p :: ps))
        (Freehand.end_ owner (Freehand.motions owner t1 (p :: ps)))) = [] := by
  have hst : strokeTos (strokeCalls owner s (p :: ps)) =
      Call.stroke_to s.x s.y (min s.pressure p.pressure)
        (some owner.engine) owner.activeLayer ::
      (p :: ps).map (fun q => Call.stroke_to q.x q.y q.pressure
        (some owner.engine) owner.activeLayer) := by
    have hsplit : strokeTos (strokeCalls owner s (p :: ps))
        = strokeTos ([Call.set_classicbrush owner.activeBrush owner.activeLayer] ++
            firstMotionCalls owner s p) ++ strokeTos (nextMotionsCalls owner ps)
          ++ strokeTos (plainEndCalls owner) := by
      simp [strokeTos, strokeCalls]
    rw [hsplit, strokeTos_nextMotionsCalls]
    simp [strokeTos, firstMotionCalls, plainEndCalls, List.filter_cons, qMin_eq_min]
  have hse : sent (strokeCalls owner s (p :: ps)) =
      [Msg.UndoPoint owner.myId, Msg.Dabs owner.myId] ::
        (ps.map fun _ => [Msg.Dabs owner.myId]) ++
        [[Msg.Dabs owner.myId, Msg.PenUp owner.myId]] := by
    have hsplit : sent (strokeCalls owner s (p :: ps))
        = sent ([Call.set_classicbrush owner.activeBrush owner.activeLayer] ++
            firstMotionCalls owner s p) ++ sent (nextMotionsCalls owner ps)
          ++ sent (plainEndCalls owner) := by
      simp [sent, strokeCalls]
    rw [hsplit, sent_nextMotionsCalls]
    simp [sent, firstMotionCalls, plainEndCalls]
  have hm : Freehand.motions owner
      { m_drawing := true, m_firstPoint := true, m_start := s,
        log := t.log ++ [Call.set_classicbrush owner.activeBrush owner.activeLayer] }
      (p :: ps) =
      { m_drawing := true, m_firstPoint := false, m_start := s,
        log := t.log ++ [Call.set_classicbrush owner.activeBrush owner.activeLayer] ++
          firstMotionCalls owner s p ++ nextMotionsCalls owner ps } := by
    have h2 : ∀ u, Freehand.motions owner u (p :: ps)
        = Freehand.motions owner (Freehand.motion owner u p) ps := fun _ => rfl
    rw [h2, motion_first owner _ p rfl rfl, motions_next owner ps _ rfl rfl]
  refine ⟨_, _, begin_idle owner t s h, stroke_idle owner t s (p :: ps) h, ?_, ?_, ?_, ?_, ?_⟩
  · simp only [emitted, List.drop_left]
    exact hst
  · simp only [emitted, List.drop_left]
    rw [hst]
    simp
  · simp only [emitted, List.drop_left]
    exact hse
  · simp only [emitted, List.drop_left]
    rw [hse]
    simp
  · rw [hm, end_next owner _ rfl rfl]
    simp [emitted, strokeTos, plainEndCalls, List.filter_cons]

theorem C14_witness :
    idle0.m_drawing = false ∧
    ∃ t1 t2, Freehand.begin owner0 idle0 s0 = some t1 ∧
      Freehand.stroke owner0 idle0 s0 (p0 :: [s0]) = some t2 ∧
      strokeTos (emitted idle0 t2) =
        Call.stroke_to s0.x s0.y (min s0.pressure p0.pressure)
          (some owner0.engine) owner0.activeLayer ::
        (p0 :: [s0]).map (fun q => Call.stroke_to q.x q.y q.pressure
          (some owner0.engine) owner0.activeLayer) ∧
      (strokeTos (emitted idle0 t2)).length = (p0 :: [s0]).length + 1 ∧
      sent (emitted idle0 t2) =
        [Msg.UndoPoint owner0.myId, Msg.Dabs owner0.myId] ::
          ([s0].map fun _ => [Msg.Dabs owner0.myId]) ++
          [[Msg.Dabs owner0.myId, Msg.PenUp owner0.myId]] ∧
      (sent (emitted idle0 t2)).length = (p0 :: [s0]).length + 1 ∧
      strokeTos (emitted (Freehand.motions owner0 t1 (p0 :: [s0]))
        (Freehand.end_ owner0 (Freehand.motions owner0 t1 (p0 :: [s0])))) = [] :=
  ⟨rfl, C14_stroke_calls owner0 idle0 s0 p0 [s0] rfl⟩

end tools

/-! ## Theorems: compositing into a tile -/

namespace dpcore

theorem compositeRowTrace_spec (n : Nat) :
    ∀ (ptr src : Int),
      (compositeRowTrace n ptr src).2 = (ptr + n, src + n) ∧
      ∀ a, a ∈ (compositeRowTrace n ptr src).1 ↔
        ∃ k : Nat, k < n ∧ a = (ptr + k, src + k) := by
  induction n with
  | zero =>
    intro ptr src
    simp [compositeRowTrace]
  | succ n ih =>
    intro ptr src
    obtain ⟨h2, hmem⟩ := ih (ptr + 1) (src + 1)
    constructor
    · simp only [compositeRowTrace, h2]
      push_cast
      ext <;> simp <;> ring
    · intro a
      simp only [compositeRowTrace, List.mem_cons, hmem]
      constructor
      · rintro (rfl | ⟨k, hk, rfl⟩)
        · exact ⟨0, Nat.succ_pos n, by simp⟩
        · refine ⟨k + 1, by omega, ?_⟩
          push_cast
          ext <;> simp <;> ring
      · rintro ⟨k, hk, rfl⟩
        cases k with
        | zero =>
          left
          simp
        | succ k =>
          right
          refine ⟨k, by omega, ?_⟩
          push_cast
          ext <;> simp <;> ring

theorem compositeRowsTrace_spec (SIZE : Nat) (w : Nat) (skip : Int) (n : Nat) :
    ∀ (ptr src : Int) (a : Int × Int),
      a ∈ compositeRowsTrace SIZE (w : Int) skip n ptr src ↔
        ∃ row col : Nat, row < n ∧ col < w ∧
          a = (ptr + row * SIZE + col, src + row * ((w : Int) + skip) + col) := by
  induction n with
  | zero =>
    intro ptr src a
    simp [compositeRowsTrace]
  | succ n ih =>
    intro ptr src a
    obtain ⟨h2, hmem⟩ := compositeRowTrace_spec w ptr src
    simp only [compositeRowsTrace, Int.toNat_natCast, List.mem_append, hmem, h2, ih]
    constructor
    · rintro (⟨k, hk, rfl⟩ | ⟨row, col, hrow, hcol, rfl⟩)
      · exact ⟨0, k, Nat.succ_pos n, hk, by simp⟩
      · refine ⟨row + 1, col, by omega, hcol, ?_⟩
        push_cast
        ext <;> simp <;> ring
    · rintro ⟨row, col, hrow, hcol, rfl⟩
      cases row with
      | zero =>
        left
        exact ⟨col, hcol, by simp⟩
      | succ row =>
        right
        refine ⟨row, col, by omega, hcol, ?_⟩
        push_cast
        ext <;> simp <;> ring

theorem tile_index_bound (SIZE : Nat) (x y w h yy xx : Int)
    (hx0 : 0 ≤ x) (hy0 : 0 ≤ y) (hxw : x + w ≤ SIZE) (hyh : y + h ≤ SIZE)
    (hyy0 : 0 ≤ yy) (hyy : yy < h) (hxx0 : 0 ≤ xx) (hxx : xx < w) :
    0 ≤ (y + yy) * SIZE + (x + xx) ∧ (y + yy) * SIZE + (x + xx) < (SIZE : Int) * SIZE := by
  have hS : (0 : Int) ≤ (SIZE : Int) := Int.natCast_nonneg SIZE
  have h1 : (y + yy) * (SIZE : Int) ≤ ((SIZE : Int) - 1) * SIZE :=
    mul_le_mul_of_nonneg_right (by omega) hS
  have h2 : 0 ≤ (y + yy) * (SIZE : Int) := mul_nonneg (by omega) hS
  have h3 : ((SIZE : Int) - 1) * SIZE = (SIZE : Int) * SIZE - SIZE := by ring
  constructor
  · omega
  · omega

theorem values_index_bound (w h skip yy xx : Int) (hs : 0 ≤ skip)
    (hyy0 : 0 ≤ yy) (hyy : yy < h) (hxx0 : 0 ≤ xx) (hxx : xx < w) :
    0 ≤ yy * (w + skip) + xx ∧ yy * (w + skip) + xx < h * (w + skip) := by
  have hws : (0 : Int) ≤ w + skip := by omega
  have h1 : (yy + 1) * (w + skip) ≤ h * (w + skip) :=
    mul_le_mul_of_nonneg_right (by omega) hws
  have h2 : 0 ≤ yy * (w + skip) := mul_nonneg hyy0 hws
  have h3 : (yy + 1) * (w + skip) = yy * (w + skip) + (w + skip) := by ring
  constructor
  · omega
  · omega

/-- C11: under the preconditions asserted by `Tile::composite`
(`0 <= x < SIZE`, `0 <= y < SIZE`, `x + w <= SIZE`, `y + h <= SIZE`) and for
`w, h >= 0` and `skip >= 0`, the loop touches exactly the pairs
(tile element `(y+yy)*SIZE + (x+xx)`, alpha `values[yy*(w+skip) + xx]`) with
`0 <= yy < h` and `0 <= xx < w`; every such element index lies in
`[0, SIZE*SIZE)` and every such `values` index lies in `[0, h*(w+skip))`.
Accordingly `composite` completes on every tile of `SIZE * SIZE` pixels with
a `values` array of `h*(w+skip)` entries. -/
theorem C11_composite_indices (SIZE : Nat) (x y w h skip : Int)
    (hx0 : 0 ≤ x) (hx : x < SIZE) (hy0 : 0 ≤ y) (hy : y < SIZE)
    (hxw : x + w ≤ SIZE) (hyh : y + h ≤ SIZE)
    (hw : 0 ≤ w) (hh : 0 ≤ h) (hs : 0 ≤ skip) :
    ∃ tr, Tile.compositeTrace SIZE x y w h skip = some tr ∧
      (∀ a ∈ tr, ∃ yy xx : Int, 0 ≤ yy ∧ yy < h ∧ 0 ≤ xx ∧ xx < w ∧
        a = ((y + yy) * SIZE + (x + xx), yy * (w + skip) + xx)) ∧
      (∀ yy xx : Int, 0 ≤ yy → yy < h → 0 ≤ xx → xx < w →
        ((y + yy) * SIZE + (x + xx), yy * (w + skip) + xx) ∈ tr) ∧
      (∀ a ∈ tr, 0 ≤ a.1 ∧ a.1 < (SIZE : Int) * SIZE ∧
        0 ≤ a.2 ∧ a.2 < h * (w + skip)) ∧
      (∀ (bn : Nat → Nat → Nat → Nat) (u : Tile) (d : Mem) (values : List Nat)
        (color : Nat), u.data_ = some d → d.length = SIZE * SIZE →
        (values.length : Int) = h * (w + skip) →
        ∃ u', Tile.composite bn SIZE u values color x y w h skip = some u') := by
  have hchar : ∀ a : Int × Int,
      a ∈ compositeRowsTrace SIZE w skip h.toNat (y * SIZE + x) 0 ↔
        ∃ yy xx : Int, 0 ≤ yy ∧ yy < h ∧ 0 ≤ xx ∧ xx < w ∧
          a = ((y + yy) * SIZE + (x + xx), yy * (w + skip) + xx) := by
    intro a
    lift w to ℕ using hw
    lift h to ℕ using hh
    rw [Int.toNat_natCast, compositeRowsTrace_spec]
    constructor
    · rintro ⟨row, col, hrow, hcol, rfl⟩
      refine ⟨row, col, Int.natCast_nonneg _, by omega, Int.natCast_nonneg _, by omega, ?_⟩
      ext <;> first | (simp; done) | (simp; ring)
    · rintro ⟨yy, xx, hyy0, hyy, hxx0, hxx, rfl⟩
      lift yy to ℕ using hyy0
      lift xx to ℕ using hxx0
      refine ⟨yy, xx, by omega, by omega, ?_⟩
      ext <;> first | (simp; done) | (simp; ring)
  refine ⟨compositeRowsTrace SIZE w skip h.toNat (y * SIZE + x) 0, ?_, ?_, ?_, ?_, ?_⟩
  · have ha1 : x ≥ 0 ∧ x < (SIZE : Int) ∧ y ≥ 0 ∧ y < (SIZE : Int) := ⟨hx0, hx, hy0, hy⟩
    have ha2 : x + w ≤ (SIZE : Int) ∧ y + h ≤ (SIZE : Int) := ⟨hxw, hyh⟩
    simp only [Tile.compositeTrace, ha1, ha2, and_self, not_true_eq_false, if_false]
  · intro a ha
    exact (hchar a).mp ha
  · intro yy xx hyy0 hyy hxx0 hxx
    exact (hchar _).mpr ⟨yy, xx, hyy0, hyy, hxx0, hxx, rfl⟩
  · intro a ha
    obtain ⟨yy, xx, hyy0, hyy, hxx0, hxx, rfl⟩ := (hchar a).mp ha
    have h1 := tile_index_bound SIZE x y w h yy xx hx0 hy0 hxw hyh hyy0 hyy hxx0 hxx
    have h2 := values_index_bound w h skip yy xx hs hyy0 hyy hxx0 hxx
    exact ⟨h1.1, h1.2, h2.1, h2.2⟩
  · intro bn u d values color hd hlen hv
    lift x to ℕ using hx0
    lift y to ℕ using hy0
    lift w to ℕ using hw
    lift h to ℕ using hh
    lift skip to ℕ using hs
    have hv2 : h * (w + skip) ≤ values.length := by
      have : ((values.length : Nat) : Int) = ((h * (w + skip) : Nat) : Int) := by
        rw [hv]; push_cast; ring
      have := Int.ofNat.inj this
      omega
    obtain ⟨r, hr, _⟩ := composite_returns bn SIZE u d values color x y w h skip hd hlen
      (by omega) (by omega) (by omega) (by omega) hv2
    exact ⟨_, hr⟩

theorem C11_witness :
    (0 : Int) ≤ 0 ∧ (0 : Int) < (2 : Nat) ∧ (0 : Int) ≤ 1 ∧ (1 : Int) < (2 : Nat) ∧
    (0 : Int) + 2 ≤ (2 : Nat) ∧ (1 : Int) + 1 ≤ (2 : Nat) ∧
    (0 : Int) ≤ 2 ∧ (0 : Int) ≤ 1 ∧ (0 : Int) ≤ 3 ∧
    Tile.compositeTrace 2 0 1 2 1 3 = some [(2, 0), (3, 1)] ∧
    ∃ tr, Tile.compositeTrace 2 0 1 2 1 3 = some tr ∧
      (∀ a ∈ tr, ∃ yy xx : Int, 0 ≤ yy ∧ yy < 1 ∧ 0 ≤ xx ∧ xx < 2 ∧
        a = ((1 + yy) * (2 : Nat) + (0 + xx), yy * (2 + 3) + xx)) ∧
      (∀ yy xx : Int, 0 ≤ yy → yy < 1 → 0 ≤ xx → xx < 2 →
        ((1 + yy) * (2 : Nat) + (0 + xx), yy * (2 + 3) + xx) ∈ tr) ∧
      (∀ a ∈ tr, 0 ≤ a.1 ∧ a.1 < ((2 : Nat) : Int) * (2 : Nat) ∧
        0 ≤ a.2 ∧ a.2 < 1 * (2 + 3)) ∧
      (∀ (bn : Nat → Nat → Nat → Nat) (u : Tile) (d : Mem) (values : List Nat)
        (color : Nat), u.data_ = some d → d.length = 2 * 2 →
        (values.length : Int) = 1 * (2 + 3) →
        ∃ u', Tile.composite bn 2 u values color 0 1 2 1 3 = some u') :=
  ⟨by decide, by decide, by decide, by decide, by decide, by decide, by decide,
    by decide, by decide, by decide,
    C11_composite_indices 2 0 1 2 1 3 (by decide) (by decide) (by decide) (by decide)
      (by decide) (by decide) (by decide) (by decide) (by decide)⟩

theorem compositeRows_empty (bn : Nat → Nat → Nat → Nat) (values : List Nat) (blend : Nat)
    (SIZE : Nat) (w skip : Int) (hw : w.toNat = 0) (n : Nat) :
    ∀ (data : Mem) (ptr src : Int),
      compositeRows bn values blend SIZE w skip n data ptr src = some data := by
  induction n with
  | zero =>
    intro data ptr src
    rfl
  | succ n ih =>
    intro data ptr src
    simp only [compositeRows, hw, compositeRow, Option.bind_eq_bind, Option.some_bind]
    exact ih data _ _

theorem compositeRows_general (bn : Nat → Nat → Nat → Nat) (values : List Nat) (blend : Nat)
    (SIZE w : Nat) (skip : Int) (hw : w ≤ SIZE) (n : Nat) :
    ∀ (data : Mem) (ptr : Nat) (src : Int),
      (∀ row, row < n → ptr + row * SIZE + w ≤ data.length) →
      (∀ row : Nat, row < n → 0 ≤ src + row * ((w : Int) + skip) ∧
        src + row * ((w : Int) + skip) + w ≤ values.length) →
      ∃ r, compositeRows bn values blend SIZE (w : Int) skip n data (ptr : Int) src
          = some r ∧
        r.length = data.length ∧
        (∀ row col, row < n → col < w →
          r[ptr + row * SIZE + col]? = (data[ptr + row * SIZE + col]?).map fun c =>
            c.map fun p => bn p blend
              (values.getD (src + row * ((w : Int) + skip) + col).toNat 0)) ∧
        (∀ i, (∀ row, row < n → i < ptr + row * SIZE ∨ ptr + row * SIZE + w ≤ i) →
          r[i]? = data[i]?) := by
  induction n with
  | zero =>
    intro data ptr src _ _
    exact ⟨data, rfl, rfl, fun _ _ h => absurd h (Nat.not_lt_zero _), fun _ _ => rfl⟩
  | succ n ih =>
    intro data ptr src hp hs
    have hs0 := hs 0 (Nat.succ_pos n)
    simp only [Nat.cast_zero, zero_mul, add_zero] at hs0
    obtain ⟨hs00, hs01⟩ := hs0
    lift src to ℕ using hs00
    obtain ⟨r1, hr1, hlen1, hin1, hout1⟩ :=
      compositeRow_spec bn values blend w data ptr src
        (by simpa using hp 0 (Nat.succ_pos n)) (by omega)
    have hp' : ∀ row, row < n → ptr + SIZE + row * SIZE + w ≤ r1.length := by
      intro row hrow
      have := hp (row + 1) (by omega)
      rw [Nat.succ_mul] at this
      omega
    have hs' : ∀ row : Nat, row < n →
        0 ≤ ((src : Int) + ((w : Int) + skip)) + row * ((w : Int) + skip) ∧
        ((src : Int) + ((w : Int) + skip)) + row * ((w : Int) + skip) + w
          ≤ values.length := by
      intro row hrow
      have := hs (row + 1) (by omega)
      have e : (src : Int) + ((row + 1 : Nat) : Int) * ((w : Int) + skip)
          = ((src : Int) + ((w : Int) + skip)) + row * ((w : Int) + skip) := by
        push_cast; ring
      rw [e] at this
      exact this
    obtain ⟨r, hr, hlen, hin, hout⟩ :=
      ih r1 (ptr + SIZE) ((src : Int) + ((w : Int) + skip)) hp' hs'
    refine ⟨r, ?_, ?_, ?_, ?_⟩
    · have e1 : (((ptr + w : Nat) : Int) + ((SIZE : Int) - (w : Int)))
          = ((ptr + SIZE : Nat) : Int) := by push_cast; ring
      have e2 : (((src + w : Nat) : Int) + skip)
          = (src : Int) + ((w : Int) + skip) := by push_cast; ring
      simp only [compositeRows, Int.toNat_natCast, hr1, Option.bind_eq_bind,
        Option.some_bind, e1, e2]
      exact hr
    · rw [hlen, hlen1]
    · intro row col hrow hcol
      cases row with
      | zero =>
        have h1 := hout (ptr + col) (by
          intro row _
          left
          omega)
        have e : ((src : Int) + ((0 : Nat) : Int) * ((w : Int) + skip) + (col : Int)).toNat
            = src + col := by
          have : (src : Int) + ((0 : Nat) : Int) * ((w : Int) + skip) + (col : Int)
              = ((src + col : Nat) : Int) := by push_cast; ring
          rw [this, Int.toNat_natCast]
        simp only [Nat.zero_mul, Nat.add_zero]
        rw [h1, e]
        exact hin1 col hcol
      | succ row =>
        have h1 := hin row col (by omega) hcol
        have h2 := hout1 (ptr + SIZE + row * SIZE + col) (by omega)
        have e1 : ptr + (row + 1) * SIZE + col = ptr + SIZE + row * SIZE + col := by
          rw [Nat.succ_mul]; omega
        have e2 : (src : Int) + ((row + 1 : Nat) : Int) * ((w : Int) + skip) + (col : Int)
            = (src : Int) + ((w : Int) + skip) + (row : Int) * ((w : Int) + skip)
              + (col : Int) := by
          push_cast; ring
        rw [e1, e2, h1, h2]
    · intro i hi
      have h0 := hi 0 (Nat.succ_pos n)
      simp only [Nat.zero_mul, Nat.add_zero] at h0
      have h1 := hout i (by
        intro row hrow
        have := hi (row + 1) (by omega)
        rw [Nat.succ_mul] at this
        omega)
      rw [h1]
      exact hout1 i h0

theorem grid_outside (S a w X Y R : Nat) (hX : X < S) (haw : a + w ≤ S)
    (hout : Y ≠ R ∨ X < a ∨ a + w ≤ X) :
    Y * S + X < R * S + a ∨ R * S + a + w ≤ Y * S + X := by
  rcases Nat.lt_trichotomy Y R with hlt | heq | hgt
  · left
    have h1 : (Y + 1) * S ≤ R * S := Nat.mul_le_mul_right S hlt
    rw [Nat.succ_mul] at h1
    omega
  · subst heq
    rcases hout with h | h | h
    · exact absurd rfl h
    · left; omega
    · right; omega
  · right
    have h1 : (R + 1) * S ≤ Y * S := Nat.mul_le_mul_right S hgt
    rw [Nat.succ_mul] at h1
    omega

theorem pixel_natCast (SIZE : Nat) (u : Tile) (d : Mem) (hd : u.data_ = some d)
    (px py : Nat) :
    Tile.pixel SIZE u (px : Int) (py : Int) = (d[py * SIZE + px]?).join := by
  have e : ((py : Int) * (SIZE : Int) + (px : Int)) = ((py * SIZE + px : Nat) : Int) := by
    push_cast; rfl
  simp only [Tile.pixel, hd, e, load_natCast, Option.bind_eq_bind, Option.some_bind]
  cases d[py * SIZE + px]? <;> rfl

theorem composite_of_rows (bn : Nat → Nat → Nat → Nat) (SIZE : Nat) (u : Tile) (d r : Mem)
    (values : List Nat) (color : Nat) (x y w h skip : Int) (hd : u.data_ = some d)
    (hx0 : 0 ≤ x) (hx : x < SIZE) (hy0 : 0 ≤ y) (hy : y < SIZE)
    (hxw : x + w ≤ SIZE) (hyh : y + h ≤ SIZE)
    (hr : compositeRows bn values color SIZE w skip h.toNat d (y * SIZE + x) 0 = some r) :
    Tile.composite bn SIZE u values color x y w h skip
      = some { u with data_ := some r, cache_ := none } := by
  have ha1 : x ≥ 0 ∧ x < (SIZE : Int) ∧ y ≥ 0 ∧ y < (SIZE : Int) := ⟨hx0, hx, hy0, hy⟩
  have ha2 : x + w ≤ (SIZE : Int) ∧ y + h ≤ (SIZE : Int) := ⟨hxw, hyh⟩
  simp only [Tile.composite, ha1, ha2, and_self, not_true_eq_false, if_false, hd,
    Option.bind_eq_bind, Option.some_bind, hr, Option.pure_def]

/-- C12: under its asserted preconditions, on a tile of `SIZE * SIZE` pixels
and with every alpha value it names present in `values`,
`Tile::composite(values, color, x, y, w, h, skip)` completes, and the pixel at
`(x+xx, y+yy)` for `0 <= xx < w`, `0 <= yy < h` becomes
`blend_normal(old pixel, color.rgba(), values[yy*(w+skip) + xx])`, a value
fixed by that old pixel, the colour and that alpha alone; every tile pixel
outside the rectangle `[x, x+w) x [y, y+h)` keeps its value, and so does the
grid position of the tile. -/
theorem C12_composite_pixels (bn : Nat → Nat → Nat → Nat) (SIZE : Nat) (u : Tile)
    (d : Mem) (values : List Nat) (color : Nat) (x y w h skip : Int)
    (hd : u.data_ = some d) (hlen : d.length = SIZE * SIZE)
    (hx0 : 0 ≤ x) (hx : x < SIZE) (hy0 : 0 ≤ y) (hy : y < SIZE)
    (hxw : x + w ≤ SIZE) (hyh : y + h ≤ SIZE)
    (hv : ∀ yy xx : Int, 0 ≤ yy → yy < h → 0 ≤ xx → xx < w →
      0 ≤ yy * (w + skip) + xx ∧ yy * (w + skip) + xx < values.length) :
    ∃ u', Tile.composite bn SIZE u values color x y w h skip = some u' ∧
      u'.x_ = u.x_ ∧ u'.y_ = u.y_ ∧
      (∀ yy xx : Int, 0 ≤ yy → yy < h → 0 ≤ xx → xx < w →
        ∃ a, values[(yy * (w + skip) + xx).toNat]? = some a ∧
          Tile.pixel SIZE u' (x + xx) (y + yy) =
            (Tile.pixel SIZE u (x + xx) (y + yy)).map fun p => bn p color a) ∧
      (∀ px py : Int, 0 ≤ px → px < SIZE → 0 ≤ py → py < SIZE →
        ¬ (x ≤ px ∧ px < x + w ∧ y ≤ py ∧ py < y + h) →
        Tile.pixel SIZE u' px py = Tile.pixel SIZE u px py) := by
  by_cases hwh : 0 < w ∧ 0 < h
  · obtain ⟨hw, hh⟩ := hwh
    lift x to ℕ using hx0
    lift y to ℕ using hy0
    lift w to ℕ using hw.le
    lift h to ℕ using hh.le
    have hw1 : 0 < w := by omega
    obtain ⟨r, hr, hrl, hin, hout⟩ := compositeRows_general bn values color SIZE w skip
      (by omega) h d (y * SIZE + x) 0
      (by
        intro row hrow
        rw [hlen]
        have h1 : (y + row + 1) * SIZE ≤ SIZE * SIZE := Nat.mul_le_mul_right SIZE (by omega)
        have h2 : (y + row + 1) * SIZE = y * SIZE + row * SIZE + SIZE := by ring
        omega)
      (by
        intro row hrow
        have h1 := hv row 0 (Int.natCast_nonneg _) (by omega) (le_refl _) (by omega)
        have h2 := hv row ((w : Int) - 1) (Int.natCast_nonneg _) (by omega) (by omega)
          (by omega)
        constructor <;> omega)
    have hptr : ((y : Int) * (SIZE : Int) + (x : Int)) = ((y * SIZE + x : Nat) : Int) := by
      push_cast; rfl
    refine ⟨{ u with data_ := some r, cache_ := none }, ?_, rfl, rfl, ?_, ?_⟩
    · apply composite_of_rows bn SIZE u d r values color _ _ _ _ skip hd
        (Int.natCast_nonneg _) hx (Int.natCast_nonneg _) hy hxw hyh
      rw [Int.toNat_natCast, hptr]
      exact hr
    · intro yy xx hyy0 hyy hxx0 hxx
      have hb := hv yy xx hyy0 hyy hxx0 hxx
      lift yy to ℕ using hyy0
      lift xx to ℕ using hxx0
      have hidx : (yy * ((w : Int) + skip) + xx).toNat < values.length := by omega
      refine ⟨values[(yy * ((w : Int) + skip) + xx).toNat], List.getElem?_eq_getElem hidx, ?_⟩
      have e1 : ((x : Int) + (xx : Int)) = ((x + xx : Nat) : Int) := by push_cast; rfl
      have e2 : ((y : Int) + (yy : Int)) = ((y + yy : Nat) : Int) := by push_cast; rfl
      have e3 : (y + yy) * SIZE + (x + xx) = y * SIZE + x + yy * SIZE + xx := by ring
      have e4 : ((0 : Int) + (yy : Int) * ((w : Int) + skip) + (xx : Int))
          = (yy : Int) * ((w : Int) + skip) + (xx : Int) := by ring
      have hcell := hin yy xx (by omega) (by omega)
      rw [e4] at hcell
      rw [e1, e2, pixel_natCast SIZE _ r rfl, pixel_natCast SIZE u d hd, e3, hcell]
      cases d[y * SIZE + x + yy * SIZE + xx]? with
      | none => rfl
      | some c =>
        cases c with
        | none => rfl
        | some v =>
          simp [Option.join, List.getD_eq_getElem?_getD, List.getElem?_eq_getElem hidx]
    · intro px py hpx0 hpx hpy0 hpy hnot
      lift px to ℕ using hpx0
      lift py to ℕ using hpy0
      rw [pixel_natCast SIZE _ r rfl, pixel_natCast SIZE u d hd]
      have := hout (py * SIZE + px) (by
        intro row hrow
        have hg := grid_outside SIZE x w px py (y + row) (by omega) (by omega) (by omega)
        rw [Nat.add_mul] at hg
        omega)
      rw [this]
  · have hrows : compositeRows bn values color SIZE w skip h.toNat d (y * SIZE + x) 0
        = some d := by
      by_cases hh : 0 < h
      · exact compositeRows_empty bn values color SIZE w skip (by omega) _ d _ _
      · have : h.toNat = 0 := by omega
        rw [this]
        rfl
    refine ⟨{ u with data_ := some d, cache_ := none },
      composite_of_rows bn SIZE u d d values color x y w h skip hd hx0 hx hy0 hy hxw hyh
        hrows, rfl, rfl, ?_, ?_⟩
    · intro yy xx hyy0 hyy hxx0 hxx
      exact absurd ⟨by omega, by omega⟩ hwh
    · intro px py _ _ _ _ _
      simp [Tile.pixel, hd]

theorem C12_witness :
    tile0.data_ = some [some 1, some 2, some 3, some 4] ∧
    [some 1, some 2, some 3, some 4].length = 2 * 2 ∧
    (0 : Int) ≤ 0 ∧ (0 : Int) < (2 : Nat) ∧ (0 : Int) ≤ 0 ∧ (0 : Int) < (2 : Nat) ∧
    (0 : Int) + 2 ≤ (2 : Nat) ∧ (0 : Int) + 2 ≤ (2 : Nat) ∧
    (∀ yy xx : Int, 0 ≤ yy → yy < 2 → 0 ≤ xx → xx < 2 →
      0 ≤ yy * (2 + 1) + xx ∧ yy * (2 + 1) + xx < values0.length) ∧
    Tile.composite blend0 2 tile0 values0 100 0 0 2 2 1 =
      some ⟨some 0, some 0, some [some 100, some 2, some 51, some 100], none⟩ ∧
    ∃ u', Tile.composite blend0 2 tile0 values0 100 0 0 2 2 1 = some u' ∧
      u'.x_ = tile0.x_ ∧ u'.y_ = tile0.y_ ∧
      (∀ yy xx : Int, 0 ≤ yy → yy < 2 → 0 ≤ xx → xx < 2 →
        ∃ a, values0[(yy * (2 + 1) + xx).toNat]? = some a ∧
          Tile.pixel 2 u' (0 + xx) (0 + yy) =
            (Tile.pixel 2 tile0 (0 + xx) (0 + yy)).map fun p => blend0 p 100 a) ∧
      (∀ px py : Int, 0 ≤ px → px < (2 : Nat) → 0 ≤ py → py < (2 : Nat) →
        ¬ (0 ≤ px ∧ px < 0 + 2 ∧ 0 ≤ py ∧ py < 0 + 2) →
        Tile.pixel 2 u' px py = Tile.pixel 2 tile0 px py) :=
  have hv : ∀ yy xx : Int, 0 ≤ yy → yy < 2 → 0 ≤ xx → xx < 2 →
      0 ≤ yy * (2 + 1) + xx ∧ yy * (2 + 1) + xx < values0.length := by
    intro yy xx h1 h2 h3 h4
    have hl : ((values0.length : Nat) : Int) = 5 := rfl
    rw [hl]
    constructor <;> omega
  ⟨rfl, rfl, by decide, by decide, by decide, by decide, by decide, by decide, hv,
    by decide,
    C12_composite_pixels blend0 2 tile0 [some 1, some 2, some 3, some 4] values0 100
      0 0 2 2 1 rfl rfl (by decide) (by decide) (by decide) (by decide) (by decide)
      (by decide) hv⟩

theorem copyToImage_natCast (SIZE : Nat) (d : Mem) (c : Option Mem) (image : QImage)
    (x y : Nat) (hx : x * SIZE < image.width) (hy : y * SIZE < image.height) :
    Tile.copyToImage SIZE
        { x_ := some (x : Int), y_ := some (y : Int), data_ := some d, cache_ := c } image =
      (copyRows d ((min SIZE (image.width - x * SIZE) : Nat) : Int) (image.width : Int)
        (SIZE : Int) (min SIZE (image.height - y * SIZE)) image.bits
        ((y * SIZE * image.width + x * SIZE : Nat) : Int) ((0 : Nat) : Int)).map fun bits =>
        { image with bits := bits } := by
  have ha : ((x : Int) * (SIZE : Int)) = ((x * SIZE : Nat) : Int) := by push_cast; rfl
  have hb : ((y : Int) * (SIZE : Int)) = ((y * SIZE : Nat) : Int) := by push_cast; rfl
  have hp : ((y * SIZE : Nat) : Int) * (image.width : Int) + ((x * SIZE : Nat) : Int)
      = ((y * SIZE * image.width + x * SIZE : Nat) : Int) := by push_cast; rfl
  have hw : (if (image.width : Int) - ((x * SIZE : Nat) : Int) < (SIZE : Int)
      then (image.width : Int) - ((x * SIZE : Nat) : Int) else (SIZE : Int))
      = ((min SIZE (image.width - x * SIZE) : Nat) : Int) := by
    split <;> omega
  have hh : (if (image.height : Int) - ((y * SIZE : Nat) : Int) < (SIZE : Int)
      then (image.height : Int) - ((y * SIZE : Nat) : Int) else (SIZE : Int))
      = ((min SIZE (image.height - y * SIZE) : Nat) : Int) := by
    split <;> omega
  simp only [Tile.copyToImage, Option.bind_eq_bind, Option.some_bind, ha, hb, hp, hw, hh,
    Int.toNat_natCast, Nat.cast_zero, Option.pure_def]
  cases copyRows d ((min SIZE (image.width - x * SIZE) : Nat) : Int) (image.width : Int)
      (SIZE : Int) (min SIZE (image.height - y * SIZE)) image.bits
      ((y * SIZE * image.width + x * SIZE : Nat) : Int) 0 <;> rfl

theorem qimage_pixel_natCast (image : QImage) (X Y : Nat) (hX : X < image.width)
    (hY : Y < image.height) :
    QImage.pixel image (X : Int) (Y : Int) = (image.bits[Y * image.width + X]?).join := by
  have hb : (0 : Int) ≤ (X : Int) ∧ (X : Int) < (image.width : Int) ∧
      (0 : Int) ≤ (Y : Int) ∧ (Y : Int) < (image.height : Int) := by
    refine ⟨Int.natCast_nonneg _, ?_, Int.natCast_nonneg _, ?_⟩ <;> omega
  have e : ((Y : Int) * (image.width : Int) + (X : Int))
      = ((Y * image.width + X : Nat) : Int) := by push_cast; rfl
  simp only [QImage.pixel, hb, and_self, if_true, e, load_natCast]

/-- C15: for a source image of width `W` and height `H`, a target image of
the same dimensions (each holding `W * H` pixels) and a tile grid position
`(x, y)` with `x*SIZE < W` and `y*SIZE < H`, building `Tile(image, x, y)` and
calling `copyToImage(target)` both complete without leaving any buffer; the
target keeps its dimensions, equals the source on the clipped tile rectangle
`[x*SIZE, min(W, (x+1)*SIZE)) x [y*SIZE, min(H, (y+1)*SIZE))` and keeps its own
pixel everywhere else. -/
theorem C15_tile_image_roundtrip (SIZE : Nat) (image target : QImage) (x y : Nat)
    (hwf : image.bits.length = image.width * image.height)
    (htw : target.width = image.width) (hth : target.height = image.height)
    (htl : target.bits.length = target.width * target.height)
    (hx : x * SIZE < image.width) (hy : y * SIZE < image.height) :
    ∃ t out, Tile.ofImage SIZE image (x : Int) (y : Int) = some t ∧
      Tile.copyToImage SIZE t target = some out ∧
      out.width = target.width ∧ out.height = target.height ∧
      out.bits.length = target.bits.length ∧
      ∀ X Y : Nat, X < image.width → Y < image.height →
        ((x * SIZE ≤ X ∧ X < min image.width ((x + 1) * SIZE) ∧
          y * SIZE ≤ Y ∧ Y < min image.height ((y + 1) * SIZE)) →
          out.bits[Y * image.width + X]? = image.bits[Y * image.width + X]? ∧
          QImage.pixel out (X : Int) (Y : Int) = QImage.pixel image (X : Int) (Y : Int)) ∧
        (¬ (x * SIZE ≤ X ∧ X < min image.width ((x + 1) * SIZE) ∧
          y * SIZE ≤ Y ∧ Y < min image.height ((y + 1) * SIZE)) →
          out.bits[Y * image.width + X]? = target.bits[Y * image.width + X]? ∧
          QImage.pixel out (X : Int) (Y : Int) = QImage.pixel target (X : Int) (Y : Int)) := by
  have hwW : min SIZE (image.width - x * SIZE) ≤ image.width - x * SIZE :=
    Nat.min_le_right _ _
  have hhH : min SIZE (image.height - y * SIZE) ≤ image.height - y * SIZE :=
    Nat.min_le_right _ _
  have hxe : (x + 1) * SIZE = x * SIZE + SIZE := Nat.succ_mul x SIZE
  have hye : (y + 1) * SIZE = y * SIZE + SIZE := Nat.succ_mul y SIZE
  obtain ⟨r1, hr1, hlen1, hin1, _⟩ := copyRows_spec image.bits
    (min SIZE (image.width - x * SIZE)) SIZE image.width (Nat.min_le_left _ _)
    (min SIZE (image.height - y * SIZE)) (List.replicate (SIZE * SIZE) none) 0
    (y * SIZE * image.width + x * SIZE)
    (by
      intro row hrow
      rw [List.length_replicate]
      exact tile_row_fits SIZE _ _ row (Nat.min_le_left _ _) (Nat.min_le_left _ _) hrow)
    (by
      intro row hrow
      rw [hwf]
      exact image_row_fits image.width image.height (x * SIZE) (y * SIZE) _ row
        (by omega) (by omega))
  rw [List.length_replicate] at hlen1
  obtain ⟨r2, hr2, hlen2, hin2, hout2⟩ := copyRows_spec r1
    (min SIZE (image.width - x * SIZE)) image.width SIZE (by omega)
    (min SIZE (image.height - y * SIZE)) target.bits
    (y * SIZE * image.width + x * SIZE) 0
    (by
      intro row hrow
      rw [htl, htw, hth]
      exact image_row_fits image.width image.height (x * SIZE) (y * SIZE) _ row
        (by omega) (by omega))
    (by
      intro row hrow
      rw [hlen1]
      exact tile_row_fits SIZE _ _ row (Nat.min_le_left _ _) (Nat.min_le_left _ _) hrow)
  have hcopy : Tile.copyToImage SIZE
      { x_ := some (x : Int), y_ := some (y : Int), data_ := some r1, cache_ := none } target
      = some { target with bits := r2 } := by
    rw [copyToImage_natCast SIZE r1 none target x y (by rw [htw]; exact hx)
      (by rw [hth]; exact hy), htw, hth, hr2]
    rfl
  refine ⟨_, _, by rw [ofImage_natCast SIZE image x y hx hy, hr1]; rfl, hcopy, rfl, rfl,
    hlen2, ?_⟩
  intro X Y hX hY
  have hpo : QImage.pixel { target with bits := r2 } (X : Int) (Y : Int)
      = (r2[Y * image.width + X]?).join := by
    have := qimage_pixel_natCast { target with bits := r2 } X Y (by simpa [htw] using hX)
      (by simpa [hth] using hY)
    simpa [htw] using this
  have hpt : QImage.pixel target (X : Int) (Y : Int)
      = (target.bits[Y * image.width + X]?).join := by
    have := qimage_pixel_natCast target X Y (by simpa [htw] using hX)
      (by simpa [hth] using hY)
    simpa [htw] using this
  have hpi := qimage_pixel_natCast image X Y hX hY
  constructor
  · rintro ⟨hX0, hX1, hY0, hY1⟩
    obtain ⟨col, rfl⟩ := Nat.exists_eq_add_of_le hX0
    obtain ⟨row, rfl⟩ := Nat.exists_eq_add_of_le hY0
    have hcol : col < min SIZE (image.width - x * SIZE) := by omega
    have hrow : row < min SIZE (image.height - y * SIZE) := by omega
    have e : (y * SIZE + row) * image.width + (x * SIZE + col)
        = y * SIZE * image.width + x * SIZE + row * image.width + col := by ring
    have hc2 := hin2 row col hrow hcol
    have hc1 := hin1 row col hrow hcol
    have hcell : r2[(y * SIZE + row) * image.width + (x * SIZE + col)]?
        = image.bits[(y * SIZE + row) * image.width + (x * SIZE + col)]? := by
      rw [e, hc2, hc1]
    refine ⟨hcell, ?_⟩
    rw [hpo, hpi, hcell]
  · intro hnot
    have hcell : r2[Y * image.width + X]? = target.bits[Y * image.width + X]? := by
      apply hout2
      intro row hrow
      have hg := grid_outside image.width (x * SIZE)
        (min SIZE (image.width - x * SIZE)) X Y (y * SIZE + row) hX (by omega) (by omega)
      rw [Nat.add_mul] at hg
      omega
    refine ⟨hcell, ?_⟩
    rw [hpo, hpt, hcell]

theorem C15_witness :
    image0.bits.length = image0.width * image0.height ∧
    target0.width = image0.width ∧ target0.height = image0.height ∧
    target0.bits.length = target0.width * target0.height ∧
    1 * 2 < image0.width ∧ 0 * 2 < image0.height ∧
    (Tile.ofImage 2 image0 ((1 : Nat) : Int) ((0 : Nat) : Int)).bind
        (fun t => Tile.copyToImage 2 t target0) =
      some ⟨3, 3, [some 0, some 0, some 12, some 0, some 0, some 15,
        some 0, some 0, some 0]⟩ ∧
    ∃ t out, Tile.ofImage 2 image0 ((1 : Nat) : Int) ((0 : Nat) : Int) = some t ∧
      Tile.copyToImage 2 t target0 = some out ∧
      out.width = target0.width ∧ out.height = target0.height ∧
      out.bits.length = target0.bits.length ∧
      ∀ X Y : Nat, X < image0.width → Y < image0.height →
        ((1 * 2 ≤ X ∧ X < min image0.width ((1 + 1) * 2) ∧
          0 * 2 ≤ Y ∧ Y < min image0.height ((0 + 1) * 2)) →
          out.bits[Y * image0.width + X]? = image0.bits[Y * image0.width + X]? ∧
          QImage.pixel out (X : Int) (Y : Int) = QImage.pixel image0 (X : Int) (Y : Int)) ∧
        (¬ (1 * 2 ≤ X ∧ X < min image0.width ((1 + 1) * 2) ∧
          0 * 2 ≤ Y ∧ Y < min image0.height ((0 + 1) * 2)) →
          out.bits[Y * image0.width + X]? = target0.bits[Y * image0.width + X]? ∧
          QImage.pixel out (X : Int) (Y : Int) = QImage.pixel target0 (X : Int) (Y : Int)) :=
  ⟨by decide, by decide, by decide, by decide, by decide, by decide, by decide,
    C15_tile_image_roundtrip 2 image0 target0 1 0 (by decide) (by decide) (by decide)
      (by decide) (by decide) (by decide)⟩

end dpcore

/-! ## Theorems: the socket address -/

namespace sockets

theorem bswap_lt (x : Nat) : bswap x < 65536 := by
  unfold bswap
  omega

theorem bswap_const_bswap (p : Nat) (hp : p < 65536) : bswap_const (bswap p) = p := by
  have h1 : p / 256 < 256 := by omega
  have h2 : p / 256 % 256 = p / 256 := Nat.mod_eq_of_lt h1
  have h3 : p % 256 < 256 := Nat.mod_lt p (by decide)
  have e1 : (p % 256 * 256 + p / 256) % 256 = p / 256 := by
    rw [Nat.add_comm, Nat.add_mul_mod_self_right, Nat.mod_eq_of_lt h1]
  have e2 : (p % 256 * 256 + p / 256) / 256 = p % 256 := by
    rw [Nat.add_comm, Nat.add_mul_div_right _ _ (by decide : 0 < 256),
      Nat.div_eq_of_lt h1, Nat.zero_add]
  have e3 : p % 256 % 256 = p % 256 := Nat.mod_eq_of_lt h3
  unfold bswap_const bswap
  rw [h2, e1, e2, e3]
  omega

/-- C16: for every 16-bit port `p` and every address `a`, with or without
`IPV6_SUPPORT`, the getter after `a.port(p)` returns `p`: the field of the
active family holds the byte-swapped port and the read swaps it back.  The
address type, the families and both IP addresses of `a` are unchanged. -/
theorem C16_port_roundtrip (IPV6_SUPPORT : Bool) (a : Address) (p : Nat)
    (hp : p < 65536) :
    Address.port IPV6_SUPPORT (Address.setPort IPV6_SUPPORT a p) = p ∧
    (Address.setPort IPV6_SUPPORT a p).type = a.type ∧
    (Address.setPort IPV6_SUPPORT a p).IPv4.sin_addr = a.IPv4.sin_addr ∧
    (Address.setPort IPV6_SUPPORT a p).IPv6.sin6_addr = a.IPv6.sin6_addr ∧
    (Address.setPort IPV6_SUPPORT a p).IPv4.sin_family = a.IPv4.sin_family ∧
    (Address.setPort IPV6_SUPPORT a p).IPv6.sin6_family = a.IPv6.sin6_family ∧
    ((Address.setPort IPV6_SUPPORT a p).IPv4.sin_port = bswap p ∨
      (Address.setPort IPV6_SUPPORT a p).IPv6.sin6_port = bswap p) := by
  have hb := bswap_const_bswap p hp
  by_cases h : (IPV6_SUPPORT && decide (a.type = AddressType.IPV6)) = true
  · simp [Address.port, Address.setPort, h, hb]
  · simp [Address.port, Address.setPort, h, hb]

theorem C16_witness :
    8080 < 65536 ∧
    (Address.setPort false address0 8080).IPv4.sin_port = 36895 ∧
    Address.port false (Address.setPort false address0 8080) = 8080 ∧
    (Address.setPort false address0 8080).type = address0.type ∧
    (Address.setPort false address0 8080).IPv4.sin_addr = address0.IPv4.sin_addr ∧
    (Address.setPort false address0 8080).IPv6.sin6_addr = address0.IPv6.sin6_addr ∧
    (Address.setPort false address0 8080).IPv4.sin_family = address0.IPv4.sin_family ∧
    (Address.setPort false address0 8080).IPv6.sin6_family = address0.IPv6.sin6_family ∧
    ((Address.setPort false address0 8080).IPv4.sin_port = bswap 8080 ∨
      (Address.setPort false address0 8080).IPv6.sin6_port = bswap 8080) :=
  ⟨by decide, by decide, C16_port_roundtrip false address0 8080 (by decide)⟩

end sockets
